import Mathlib

set_option maxRecDepth 4000

/-!
Verification development for the news-video assembly engine implemented in
`live.py` (class `NewsVideoCreator`).  The definitions below are a shallow
embedding of the Python source: pure helper functions become Lean functions,
the pixel grid of the template image becomes an explicit accessor function,
the flood fill becomes a fuel-indexed tail recursion whose fuel bound exceeds
the maximal number of loop iterations of the Python `while stack:` loop, and
the run-level control flow of `create_final_video` becomes a function into
`Except`.  Durations measured by the external transcoding engine (`ffprobe`)
are modelled as exact rationals, and each call into the transcoding engine is
modelled by the duration contract the source relies on (`-t d` produces a clip
of duration `d`, concat sums durations, `-shortest` takes the minimum).
-/

/-! ## Decimal digit runs and the numeric sort key (`get_sorted_items`) -/

/-- Longest leading run of decimal digits of a character list; embeds the tail
of a regex `(\d+)` match in `extract_number` (`live.py` lines 119-124). -/
def takeDigits : List Char → List Char
  | [] => []
  | c :: cs => if c.isDigit then c :: takeDigits cs else []

/-- First run of decimal digits in a character list, if any; embeds
`re.search` with pattern `(\d+)`. -/
def firstDigitRun : List Char → Option (List Char)
  | [] => none
  | c :: cs => if c.isDigit then some (c :: takeDigits cs) else firstDigitRun cs

/-- Decimal value of a digit-character list, as computed by Python `int` on the
matched group. -/
def digitsVal (cs : List Char) : Nat :=
  cs.foldl (fun a c => 10 * a + (c.toNat - 48)) 0

/-- `extract_number` from `get_sorted_items`: the first run of digits of the
name parsed as an integer, `0` when the name has no digit. -/
def extractNumber (s : String) : Nat :=
  match firstDigitRun s.data with
  | some ds => digitsVal ds
  | none => 0

/-- Comparison used by `sorted(items, key=extract_number)`: order by the
numeric key.  Python `sorted` is stable, which `List.insertionSort` with this
non-strict relation reproduces exactly. -/
def keyLE {α : Type} (name : α → String) (a b : α) : Prop :=
  extractNumber (name a) ≤ extractNumber (name b)

instance {α : Type} (name : α → String) : DecidableRel (keyLE name) :=
  fun _ _ => Nat.decLe _ _

instance {α : Type} (name : α → String) : IsTotal α (keyLE name) :=
  ⟨fun _ _ => Nat.le_total _ _⟩

instance {α : Type} (name : α → String) : IsTrans α (keyLE name) :=
  ⟨fun _ _ _ => Nat.le_trans⟩

/-- `get_sorted_items` specialised to a name accessor. -/
def sortByName {α : Type} (name : α → String) (l : List α) : List α :=
  List.insertionSort (keyLE name) l

/-- `get_sorted_items` on bare names. -/
def getSortedItems (l : List String) : List String :=
  sortByName (fun s => s) l

/-! ## Decimal printing (for the intermediate file names of `live.py`) -/

/-- The ten decimal digit characters; used to print numbers exactly as Python
string interpolation does. -/
def digChar (d : Nat) : Char :=
  match d with
  | 0 => '0' | 1 => '1' | 2 => '2' | 3 => '3' | 4 => '4'
  | 5 => '5' | 6 => '6' | 7 => '7' | 8 => '8' | _ => '9'

/-- Decimal representation of a natural number as a character list (Python
`str(n)` for nonnegative `n`). -/
def natChars (n : Nat) : List Char :=
  if n = 0 then ['0'] else (Nat.digits 10 n).reverse.map digChar

/-- Python `f"{i:03d}"` for nonnegative `i`: the decimal digits, left padded
with zeros to width 3. -/
def pad3Chars (n : Nat) : List Char :=
  List.replicate (3 - (natChars n).length) '0' ++ natChars n

/-- Decimal representation of an integer (Python `str(k)`). -/
def intChars (k : Int) : List Char :=
  if k < 0 then '-' :: natChars k.natAbs else natChars k.natAbs

/-! ## Effect filter builder (`create_image_effect_filter`, lines 174-185)

Python `int(x)` truncates toward zero; `pyInt` models it on exact rationals
(the source computes `target_w*1.025` and `duration*30` in floating point, but
the only facts stated about this function concern its determinism, which is
unaffected by the rounding model). -/

/-- Python `int()` on a rational: truncation toward zero. -/
def pyInt (q : ℚ) : Int :=
  if q < 0 then -Int.floor (-q) else Int.floor q

/-- The motion-effect descriptor string built by `create_image_effect_filter`:
slow zoom from 1.0 to 1.025, sub-pixel sinusoidal jitter, final scale to the
target size.  A pure function of `(duration, target_w, target_h)`. -/
def createImageEffectFilter (duration : ℚ) (targetW targetH : Nat) : String :=
  String.mk
    (("scale=").data ++ intChars (pyInt ((targetW : ℚ) * (41 / 40))) ++ (":").data ++
      intChars (pyInt ((targetH : ℚ) * (41 / 40))) ++
      (",zoompan=z=\x27min(zoom+0.00012,1.025)\x27:d=").data ++
      intChars (pyInt (duration * 30)) ++
      (":x=\x27iw/2-(iw/zoom/2)\x27:y=\x27ih/2-(ih/zoom/2)\x27:s=").data ++
      natChars targetW ++ ("x").data ++ natChars targetH ++
      (",crop=iw-4:ih-4:2+2*sin(n/20):2+2*sin(n/17),scale=").data ++
      natChars targetW ++ (":").data ++ natChars targetH ++ (",setsar=1").data)

/-! ## Flat-mode segment synthesis (`create_segment_video_simple`, lines 217-294) -/

/-- Durations produced by one flat-mode segment build: the per-image clip
durations, the concatenated video duration, and the muxed output duration
(`-shortest`: minimum of video and audio). -/
structure SegResult where
  clipDurations : List ℚ
  videoDuration : ℚ
  outputDuration : ℚ
deriving DecidableEq, Repr

/-- Duration bookkeeping of `create_segment_video_simple`: `None` when the
image list is empty (the Python function returns `False`), otherwise the audio
duration is split evenly over the images, the per-image clips are concatenated
and the audio is muxed with `-shortest`. -/
def createSegmentVideoSimple (audioDuration : ℚ) (images : List String) :
    Option SegResult :=
  if images.isEmpty then none
  else
    let durationPerImage := audioDuration / (images.length : ℚ)
    let clips := images.map (fun _ => durationPerImage)
    let concatDuration := clips.foldl (· + ·) 0
    some ⟨clips, concatDuration, min concatDuration audioDuration⟩

/-- Duration bookkeeping of `create_segment_video_template`: the composite is
rendered with `-t audio_duration` and then muxed with the audio under
`-shortest`. -/
def createSegmentVideoTemplate (audioDuration : ℚ) (images : List String) :
    Option SegResult :=
  if images.isEmpty then none
  else
    let durationPerImage := audioDuration / (images.length : ℚ)
    let clips := images.map (fun _ => durationPerImage)
    some ⟨clips, audioDuration, min audioDuration audioDuration⟩

/-! ## Intermediate file names (template mode)

`id(self)` is constant for the whole run and `id(images)` is the identity of
the per-call image list; both are modelled as natural-number parameters. -/

/-- `temp/clip_{id(images)}_{i:03d}.mp4` from `create_slideshow_for_main`. -/
def clipName (imagesId i : Nat) : String :=
  String.mk (("clip_").data ++ natChars imagesId ++ ("_").data ++ pad3Chars i ++ (".mp4").data)

/-- `temp/clips_concat_{id(images)}.txt` from `create_slideshow_for_main`. -/
def clipsConcatName (imagesId : Nat) : String :=
  String.mk (("clips_concat_").data ++ natChars imagesId ++ (".txt").data)

/-- `temp/slideshow_{id(images)}.mp4` from `create_slideshow_for_main`. -/
def slideshowName (imagesId : Nat) : String :=
  String.mk (("slideshow_").data ++ natChars imagesId ++ (".mp4").data)

/-- `temp/anchor_loop_{id(self)}.mp4` from `loop_anchor`. -/
def anchorLoopName (selfId : Nat) : String :=
  String.mk (("anchor_loop_").data ++ natChars selfId ++ (".mp4").data)

/-- `temp/template_part_{id(self)}.mp4` from `composite_template_part`. -/
def templatePartName (selfId : Nat) : String :=
  String.mk (("template_part_").data ++ natChars selfId ++ (".mp4").data)

/-- All intermediate file names written while building one template-mode
segment with `n ≥ 1` images: the per-image clips, the concat list (only when
`n ≠ 1`), the slideshow, the anchor loop and the composite. -/
def templateSegmentNames (selfId imagesId n : Nat) : List String :=
  (List.range n).map (clipName imagesId) ++
    (if n = 1 then [] else [clipsConcatName imagesId]) ++
    [slideshowName imagesId, anchorLoopName selfId, templatePartName selfId]

/-! ## Timeline assembly and the overlay enable predicate
(`create_final_video`, lines 570-578 and 632-651) -/

/-- Total-duration computation of `create_final_video`: the sum of the
measured segment durations, plus `transition_duration * (len(segments) - 1)`
when a transition clip exists. -/
def totalDurationOf (segDurs : List ℚ) (transition : Option ℚ) : ℚ :=
  let segTotal := segDurs.foldl (· + ·) 0
  match transition with
  | some td => segTotal + td * ((segDurs.length : ℚ) - 1)
  | none => segTotal

/-- The record-overlay timeline of `create_final_video` (lines 632-643): one
`(start, end, isSegment)` span per segment, interleaved with transition spans
after every segment but the last when a transition exists. -/
def buildTimeline (t0 : ℚ) (transition : Option ℚ) : List ℚ → List (ℚ × ℚ × Bool)
  | [] => []
  | [d] => [(t0, t0 + d, true)]
  | d :: rest =>
    (t0, t0 + d, true) ::
      match transition with
      | some td => (t0 + d, t0 + d + td, false) :: buildTimeline (t0 + d + td) (some td) rest
      | none => buildTimeline (t0 + d) none rest

/-- The windows gathered into the overlay `enable` expression (lines 646-651):
the `(start, end)` pairs of the timeline spans flagged as segments, in
timeline order. -/
def overlayWindowsOf (tl : List (ℚ × ℚ × Bool)) : List (ℚ × ℚ) :=
  tl.filterMap (fun sp => if sp.2.2 then some (sp.1, sp.2.1) else none)

/-- Semantics of one ffmpeg `between(t,a,b)` test: per the ffmpeg expression
language, `1` exactly when `a ≤ t ≤ b` (inclusive at both endpoints). -/
def betweenB (t a b : ℚ) : Bool :=
  decide (a ≤ t) && decide (t ≤ b)

/-- Semantics of the compiled enable expression
`between(t,s1,e1)+between(t,s2,e2)+...`: the sum of indicators is nonzero
exactly when some window test holds. -/
def enablePredB (ws : List (ℚ × ℚ)) (t : ℚ) : Bool :=
  ws.any (fun w => betweenB t w.1 w.2)

/-! ## Region detector (`detect_template_regions`, lines 40-117) -/

/-- A decoded RGB template image: dimensions and a pixel accessor, the
interface used by the source through `PIL.Image` (`img.size`, `pixels[x, y]`). -/
structure Img where
  width : Nat
  height : Nat
  pix : Int → Int → Nat × Nat × Nat

/-- `is_green`: key-color classification `g > 200 and r < 100 and b < 100`. -/
def isGreen (p : Nat × Nat × Nat) : Bool :=
  decide (200 < p.2.1) && decide (p.1 < 100) && decide (p.2.2 < 100)

/-- The in-bounds pixel coordinates of an image, as a finite set. -/
def inBoundsF (img : Img) : Finset (Int × Int) :=
  Finset.Icc 0 ((img.width : Int) - 1) ×ˢ Finset.Icc 0 ((img.height : Int) - 1)

/-- A coordinate holding a key-colored pixel of the image. -/
def greenPt (img : Img) (p : Int × Int) : Prop :=
  p ∈ inBoundsF img ∧ isGreen (img.pix p.1 p.2) = true

instance (img : Img) (p : Int × Int) : Decidable (greenPt img p) :=
  instDecidableAnd

/-- The four neighbours pushed by the flood fill, listed in the order in which
the Python stack pops them (`extend` appends, `pop` takes the end). -/
def nbrsOf (p : Int × Int) : List (Int × Int) :=
  [(p.1, p.2 - 1), (p.1, p.2 + 1), (p.1 - 1, p.2), (p.1 + 1, p.2)]

/-- One 4-connectivity step between key-colored pixels. -/
def greenAdj (img : Img) (p q : Int × Int) : Prop :=
  greenPt img p ∧ greenPt img q ∧ q ∈ nbrsOf p

/-- Reachability through key-colored pixels (the connectivity recovered by the
source's flood fill). -/
def reach (img : Img) (p q : Int × Int) : Prop :=
  Relation.ReflTransGen (greenAdj img) p q

/-- The connected key-colored component of a pixel, as a set. -/
def compSet (img : Img) (p : Int × Int) : Set (Int × Int) :=
  {q | reach img p q}

/-- The `while stack:` loop of `flood_fill` (lines 60-72).  The stack holds
signed coordinates exactly as in the source (bounds are checked before the
pixel access); `visited` is the shared visited set, `region` the accumulated
component in append order.  The recursion is indexed by fuel; `ffFuel` below
strictly exceeds the number of iterations the Python loop can perform, so the
fuel-exhaustion branch is never taken on the calls the detector makes. -/
def floodFillAux (img : Img) :
    Nat → List (Int × Int) → List (Int × Int) → List (Int × Int) →
      List (Int × Int) × List (Int × Int)
  | 0, _, visited, region => (visited, region)
  | _ + 1, [], visited, region => (visited, region)
  | fuel + 1, c :: rest, visited, region =>
    if c ∈ visited ∨ c.1 < 0 ∨ c.2 < 0 ∨ (img.width : Int) ≤ c.1 ∨ (img.height : Int) ≤ c.2 then
      floodFillAux img fuel rest visited region
    else if isGreen (img.pix c.1 c.2) = false then
      floodFillAux img fuel rest visited region
    else
      floodFillAux img fuel (nbrsOf c ++ rest) (c :: visited) (region ++ [c])

/-- Fuel bound for the flood fill: each loop iteration either pops a stack
entry (at most `1 + 4·width·height` entries are ever pushed) so
`5·width·height + 1` iterations always suffice. -/
def ffFuel (img : Img) : Nat :=
  5 * img.width * img.height + 1

/-- `flood_fill(x, y)` with the shared visited set. -/
def floodFill (img : Img) (p : Int × Int) (visited : List (Int × Int)) :
    List (Int × Int) × List (Int × Int) :=
  floodFillAux img (ffFuel img) [p] visited []

/-- `range(0, n, 5)`. -/
def gridVals (n : Nat) : List Nat :=
  (List.range ((n + 4) / 5)).map (fun k => 5 * k)

/-- The seed coordinates of the sparse grid scan (lines 75-77): stride-5 grid,
rows outer, columns inner. -/
def scanSeeds (img : Img) : List (Int × Int) :=
  (gridVals img.height).flatMap
    (fun (y : Nat) => (gridVals img.width).map (fun (x : Nat) => ((x : Int), (y : Int))))

/-- One iteration of the seed scan (lines 77-80): an unvisited key-colored
seed starts a flood fill, and the recovered region is kept when it has more
than 100 pixels. -/
def scanStep (img : Img) (st : List (Int × Int) × List (List (Int × Int)))
    (p : Int × Int) : List (Int × Int) × List (List (Int × Int)) :=
  if p ∉ st.1 ∧ isGreen (img.pix p.1 p.2) = true then
    let res := floodFill img p st.1
    (res.1, if 100 < res.2.length then st.2 ++ [res.2] else st.2)
  else st

/-- The full seed scan: final visited set and kept regions in discovery
order. -/
def scanRegions (img : Img) : List (Int × Int) × List (List (Int × Int)) :=
  (scanSeeds img).foldl (scanStep img) ([], [])

/-- Bounding-box record of `detect_template_regions` (lines 87-96): note that
the source sets `w = x2 - x1` and `h = y2 - y1` from the extreme member
coordinates, and `area = w * h`. -/
structure Box where
  x : Int
  y : Int
  w : Int
  h : Int
  area : Int
deriving DecidableEq, Repr

/-- The box computed for one region list (lines 88-96); the empty case is
unreachable because kept regions have more than 100 pixels. -/
def boxOf : List (Int × Int) → Box
  | [] => ⟨0, 0, 0, 0, 0⟩
  | p :: ps =>
    let x1 := ps.foldl (fun a q => min a q.1) p.1
    let x2 := ps.foldl (fun a q => max a q.1) p.1
    let y1 := ps.foldl (fun a q => min a q.2) p.2
    let y2 := ps.foldl (fun a q => max a q.2) p.2
    ⟨x1, y1, x2 - x1, y2 - y1, (x2 - x1) * (y2 - y1)⟩

/-- Comparison used by `boxes.sort(key=lambda b: b['area'], reverse=True)`:
descending by area; with stable insertion this reproduces Python's stable
reverse sort. -/
def areaGE (b1 b2 : Box) : Prop :=
  b2.area ≤ b1.area

instance : DecidableRel areaGE :=
  fun _ _ => Int.decLe _ _

instance : IsTotal Box areaGE :=
  ⟨fun _ _ => Int.le_total _ _⟩

instance : IsTrans Box areaGE :=
  ⟨fun _ _ _ hab hbc => le_trans hbc hab⟩

/-- `detect_template_regions`: grid-seeded flood fill, keep regions with more
than 100 pixels, fail when fewer than two remain, else return the two boxes of
largest area (main first). -/
def detectTemplateRegions (img : Img) : Option (Box × Box) :=
  let regions := (scanRegions img).2
  if regions.length < 2 then none
  else
    match List.insertionSort areaGE (regions.map boxOf) with
    | b0 :: b1 :: _ => some (b0, b1)
    | _ => none

/-- The axis-aligned bounding box, written from the specification's words:
`{x, y, width, height}` of the full rectangle `[x1, x2] × [y1, y2]`, whose
width and height count pixel columns and rows.  Used to compare the claimed
output of the detector with the computed one. -/
def specTrueBox (x1 y1 x2 y2 : Int) : Box :=
  ⟨x1, y1, x2 - x1 + 1, y2 - y1 + 1, (x2 - x1 + 1) * (y2 - y1 + 1)⟩

/-! ## Run model (`create_final_video`, lines 504-711) -/

/-- Run mode: `'video'` (flat) or `'with_template'`. -/
inductive Mode where
  | video
  | withTemplate
deriving DecidableEq, Repr

/-- The distinct fatal early-return sites of `create_final_video`. -/
inductive RunError where
  | templateMissing
  | anchorMissing
  | regionDetection
  | noAudio
  | noSegments
deriving DecidableEq, Repr

/-- The specification's `AssetMissing` error class: no audio tracks, or
template-mode prerequisites absent (written from the spec's error taxonomy,
for comparison with the code's error sites). -/
def assetMissingSpec : RunError → Bool
  | .templateMissing => true
  | .anchorMissing => true
  | .noAudio => true
  | .regionDetection => false
  | .noSegments => false

/-- One discovered audio track: its name and its probed duration. -/
structure Track where
  name : String
  dur : ℚ

/-- One discovered image folder: its name and the images inside. -/
structure ImgFolder where
  name : String
  images : List String

/-- The state of the base folder as the engine observes it: discovered assets
in discovery order, presence flags for the optional overlay assets, and the
probed duration of the normalized transition clip when `transaction.mp4`
exists. -/
structure Env where
  mode : Mode
  template : Option Img
  anchorExists : Bool
  tracksRaw : List Track
  foldersRaw : List ImgFolder
  transition : Option ℚ
  recordExists : Bool

/-- The observable outcome of a successful run. -/
structure RunOutput where
  warnings : List String
  segmentDurations : List ℚ
  segmentTotal : ℚ
  totalDuration : ℚ
  windows : List (ℚ × ℚ)
deriving DecidableEq, Repr

/-- The per-pair segment synthesis of the main loop (lines 542-564): empty
image folders are skipped, otherwise the mode-specific builder runs and its
output duration is what the later `get_video_duration` probe measures. -/
def segmentsOf (mode : Mode) (tracks : List Track) (folders : List ImgFolder) :
    List ℚ :=
  (tracks.zip folders).filterMap
    (fun pr =>
      (match mode with
        | .video => createSegmentVideoSimple pr.1.dur pr.2.images
        | .withTemplate => createSegmentVideoTemplate pr.1.dur pr.2.images).map
        (fun r : SegResult => r.outputDuration))

/-- The tail of `create_final_video` after the mode checks: enumeration and
numeric sort of the assets, the no-audio check, the count-mismatch warning,
segment synthesis, the no-segments check, duration bookkeeping, and the
overlay window computation (template mode with `record.mp4` present). -/
def runMain (env : Env) : Except RunError RunOutput :=
  let tracks := sortByName Track.name env.tracksRaw
  let folders := sortByName ImgFolder.name env.foldersRaw
  if tracks.isEmpty then .error .noAudio
  else
    let warnings :=
      if tracks.length ≠ folders.length then [String.mk (("count_mismatch").data)] else []
    let segDurs := segmentsOf env.mode tracks folders
    if segDurs.isEmpty then .error .noSegments
    else
      let segTotal := segDurs.foldl (· + ·) 0
      let tl :=
        if env.mode = .withTemplate ∧ env.recordExists then
          buildTimeline 0 env.transition segDurs
        else []
      .ok
        { warnings := warnings
          segmentDurations := segDurs
          segmentTotal := segTotal
          totalDuration := totalDurationOf segDurs env.transition
          windows := overlayWindowsOf tl }

/-- `create_final_video`: the template-mode prerequisite checks and region
detection (lines 511-522), then the main pipeline. -/
def createFinalVideo (env : Env) : Except RunError RunOutput :=
  match env.mode with
  | .withTemplate =>
    match env.template with
    | none => .error .templateMissing
    | some img =>
      if env.anchorExists = false then .error .anchorMissing
      else
        match detectTemplateRegions img with
        | none => .error .regionDetection
        | some _ => runMain env
  | .video => runMain env

/-! ## Concrete instances used by counterexamples and witnesses -/

/-- Pixel grid holding two key-colored rectangles: `[0,16] × [0,6]`
(17 × 7 = 119 pixels) and `[20,36] × [10,15]` (17 × 6 = 102 pixels),
black elsewhere. -/
def exPix (x y : Int) : Nat × Nat × Nat :=
  if (0 ≤ x ∧ x ≤ 16 ∧ 0 ≤ y ∧ y ≤ 6) ∨ (20 ≤ x ∧ x ≤ 36 ∧ 10 ≤ y ∧ y ≤ 15) then
    (0, 255, 0)
  else (0, 0, 0)

/-- A 40 × 16 template image containing exactly the two rectangles of
`exPix`. -/
def exImg : Img :=
  ⟨40, 16, exPix⟩

/-- An all-black 10 × 10 template image (no key-colored pixel at all). -/
def blackImg : Img :=
  ⟨10, 10, fun _ _ => (0, 0, 0)⟩

/-- Membership in the filled integer rectangle `[x1, x2] × [y1, y2]`. -/
def inRect (x1 y1 x2 y2 : Int) (p : Int × Int) : Prop :=
  x1 ≤ p.1 ∧ p.1 ≤ x2 ∧ y1 ≤ p.2 ∧ p.2 ≤ y2

instance (x1 y1 x2 y2 : Int) (p : Int × Int) : Decidable (inRect x1 y1 x2 y2 p) := by
  unfold inRect; infer_instance

/-- Invariant carried through the seed scan of `detect_template_regions`:
every visited pixel is key-colored; the visited set is closed under
key-colored 4-neighbourhood; every kept region is the full connected
component of a key-colored seed, has no duplicates, has more than 100 pixels
and is contained in the visited set; kept regions are pairwise disjoint; and
every visited pixel whose component has more than 100 pixels already has its
component among the kept regions. -/
def ScanInv (img : Img) (st : List (Int × Int) × List (List (Int × Int))) : Prop :=
  (∀ v ∈ st.1, greenPt img v) ∧
  (∀ v ∈ st.1, ∀ q ∈ nbrsOf v, greenPt img q → q ∈ st.1) ∧
  (∀ r ∈ st.2, ∃ s, greenPt img s ∧ (∀ x, x ∈ r ↔ reach img s x) ∧
    r.Nodup ∧ 100 < r.length ∧ (∀ x ∈ r, x ∈ st.1)) ∧
  List.Pairwise (fun r t => ∀ x, x ∈ r → x ∉ t) st.2 ∧
  (∀ p ∈ st.1, 100 < (compSet img p).ncard →
    ∃ r ∈ st.2, ∀ x, x ∈ r ↔ reach img p x)

/-- A run over an empty base folder: no audio tracks, no image folders. -/
def envA : Env :=
  ⟨.video, none, false, [], [], none, false⟩

/-- A run with one audio track but zero image folders. -/
def envC7 : Env :=
  ⟨.video, none, false, [⟨"1", 5⟩], [], none, false⟩

/-- A run with five audio tracks and three nonempty image folders. -/
def envC8 : Env :=
  ⟨.video, none, false,
    [⟨"a1", 4⟩, ⟨"a2", 4⟩, ⟨"a3", 4⟩, ⟨"a4", 4⟩, ⟨"a5", 4⟩],
    [⟨"f1", ["i1"]⟩, ⟨"f2", ["i1"]⟩, ⟨"f3", ["i1"]⟩],
    none, false⟩

/-- A template-mode run whose template image has no key-colored pixels. -/
def envBlack : Env :=
  ⟨.withTemplate, some blackImg, true, [⟨"1", 5⟩], [⟨"f1", ["i1"]⟩], none, false⟩

/-! # Theorems -/

/-! ## Generic helper lemmas -/

theorem foldl_add_eq_add_sum (l : List ℚ) (a : ℚ) : l.foldl (· + ·) a = a + l.sum := by
  induction l generalizing a with
  | nil => simp
  | cons x xs ih => simp [ih, List.sum_cons]; ring

theorem firstDigitRun_eq_none (cs : List Char) (h : ∀ c ∈ cs, c.isDigit = false) :
    firstDigitRun cs = none := by
  induction cs with
  | nil => rfl
  | cons c cs ih =>
    have hc := h c (List.mem_cons_self c cs)
    simp [firstDigitRun, hc]
    exact ih (fun x hx => h x (List.mem_cons_of_mem c hx))

/-! ## C10: determinism of the effect filter builder -/

/-- C10: the Effect Filter Builder is a pure, deterministic function: any two
calls with identical `(duration, width, height)` inputs return identical
motion-effect descriptors, with no randomness involved. -/
theorem c10_effect_filter_pure (d1 d2 : ℚ) (w1 w2 h1 h2 : Nat)
    (hd : d1 = d2) (hw : w1 = w2) (hh : h1 = h2) :
    createImageEffectFilter d1 w1 h1 = createImageEffectFilter d2 w2 h2 := by
  rw [hd, hw, hh]

/-- Witness for C10 at a concrete input. -/
theorem c10_witness :
    createImageEffectFilter 3 1920 1080 = createImageEffectFilter 3 1920 1080 :=
  c10_effect_filter_pure 3 3 1920 1920 1080 1080 rfl rfl rfl

/-! ## C4: flat-mode segment duration equals the audio duration -/

/-- C4: in flat mode, for an audio track of duration `d` and a non-empty image
list of length `N`, the audio duration is split into `N` clips of `d / N`
each, their concatenation has duration `d`, and the `-shortest` mux makes the
output duration exactly `d`, for every `N ≥ 1`. -/
theorem c4_flat_segment_duration (d : ℚ) (images : List String) (h : images ≠ []) :
    createSegmentVideoSimple d images =
      some ⟨List.replicate images.length (d / (images.length : ℚ)), d, d⟩ := by
  have hn : images.length ≠ 0 := fun hl => h (List.eq_nil_of_length_eq_zero hl)
  have hq : (images.length : ℚ) ≠ 0 := Nat.cast_ne_zero.mpr hn
  have hmap : images.map (fun _ => d / (images.length : ℚ)) =
      List.replicate images.length (d / (images.length : ℚ)) := by
    simp [List.eq_replicate_iff]
  have hsum : (List.replicate images.length (d / (images.length : ℚ))).sum = d := by
    rw [List.sum_replicate, nsmul_eq_mul]
    field_simp
  unfold createSegmentVideoSimple
  rw [if_neg (by simp [List.isEmpty_iff, h])]
  simp only [hmap]
  rw [foldl_add_eq_add_sum, zero_add, hsum, min_self]

/-- Witness for C4 at duration 6 with three images. -/
theorem c4_witness :
    createSegmentVideoSimple 6 ["a", "b", "c"] = some ⟨[2, 2, 2], 6, 6⟩ := by
  have h := c4_flat_segment_duration 6 ["a", "b", "c"] (by simp)
  rw [h]
  norm_num [List.replicate_succ]

/-! ## C3: total timeline duration -/

/-- C3: for `n ≥ 1` measured segment durations, the computed total duration is
their sum plus `transitionDuration * (n - 1)` when a transition clip exists,
and their sum alone when it does not (`live.py` lines 570-578). -/
theorem c3_total_duration (durs : List ℚ) (td : ℚ) (h : durs ≠ []) :
    totalDurationOf durs (some td) = durs.sum + td * ((durs.length : ℚ) - 1) ∧
    totalDurationOf durs none = durs.sum := by
  have hlen : durs ≠ [] := h
  unfold totalDurationOf
  constructor
  · simp [foldl_add_eq_add_sum]
  · simp [foldl_add_eq_add_sum]

/-- Witness for C3 on segment durations `[10, 8, 12]` and transition 2. -/
theorem c3_witness : totalDurationOf [10, 8, 12] (some 2) = 34 := by
  rw [(c3_total_duration [10, 8, 12] 2 (by simp)).1]
  norm_num

/-! ## C2: the overlay enable predicate for durations [10, 8, 12], transition 2 -/

/-- C2 counterexample: the claim asserts the compiled enable predicate is
false throughout `[10, 12)` and `[20, 22)` and false at any `t ≥ 34`-boundary
outside the half-open windows, but the `between(t,a,b)` tests are inclusive at
both endpoints, so the predicate evaluates to true at `t = 10` and `t = 20`. -/
theorem c2_counterexample :
    overlayWindowsOf (buildTimeline 0 (some 2) [10, 8, 12]) =
      [(0, 10), (12, 20), (22, 34)] ∧
    enablePredB (overlayWindowsOf (buildTimeline 0 (some 2) [10, 8, 12])) 10 = true ∧
    enablePredB (overlayWindowsOf (buildTimeline 0 (some 2) [10, 8, 12])) 20 = true := by
  have hw : overlayWindowsOf (buildTimeline 0 (some 2) [10, 8, 12]) =
      [(0, 10), (12, 20), (22, 34)] := by
    norm_num [buildTimeline, overlayWindowsOf, List.filterMap_cons]
  refine ⟨hw, ?_, ?_⟩ <;> rw [hw] <;> norm_num [enablePredB, betweenB]

/-- C2 amended: for segment durations `[10, 8, 12]` and transition duration 2,
the windows are collected as `(start, end)` pairs in timeline order, namely
`(0,10), (12,20), (22,34)`, and the compiled enable predicate is true exactly
on the closed intervals `[0,10] ∪ [12,20] ∪ [22,34]` (ffmpeg `between` is
inclusive at both endpoints). -/
theorem c2_amended :
    overlayWindowsOf (buildTimeline 0 (some 2) [10, 8, 12]) =
      [(0, 10), (12, 20), (22, 34)] ∧
    (∀ t : ℚ, enablePredB (overlayWindowsOf (buildTimeline 0 (some 2) [10, 8, 12])) t = true ↔
      ((0 ≤ t ∧ t ≤ 10) ∨ (12 ≤ t ∧ t ≤ 20) ∨ (22 ≤ t ∧ t ≤ 34))) := by
  have hw : overlayWindowsOf (buildTimeline 0 (some 2) [10, 8, 12]) =
      [(0, 10), (12, 20), (22, 34)] := by
    norm_num [buildTimeline, overlayWindowsOf, List.filterMap_cons]
  refine ⟨hw, fun t => ?_⟩
  rw [hw]
  simp [enablePredB, betweenB]

/-! ## C5: numeric asset ordering -/

theorem filter_orderedInsert_eq {α : Type} (name : α → String) (x : α) (l : List α) :
    (List.orderedInsert (keyLE name) x l).filter
        (fun a => extractNumber (name a) == extractNumber (name x)) =
      x :: l.filter (fun a => extractNumber (name a) == extractNumber (name x)) := by
  induction l with
  | nil => simp [List.orderedInsert]
  | cons y ys ih =>
    by_cases hr : keyLE name x y
    · simp [List.orderedInsert, hr, List.filter_cons]
    · have hlt : extractNumber (name y) < extractNumber (name x) := Nat.lt_of_not_le hr
      have hy : (extractNumber (name y) == extractNumber (name x)) = false := by
        simp [Nat.ne_of_lt hlt]
      simp [List.orderedInsert, hr, List.filter_cons, hy, ih]

theorem filter_orderedInsert_ne {α : Type} (name : α → String) (x : α) (l : List α)
    (k : Nat) (hk : extractNumber (name x) ≠ k) :
    (List.orderedInsert (keyLE name) x l).filter
        (fun a => extractNumber (name a) == k) =
      l.filter (fun a => extractNumber (name a) == k) := by
  induction l with
  | nil => simp [List.orderedInsert, List.filter_cons, hk]
  | cons y ys ih =>
    by_cases hr : keyLE name x y
    · simp [List.orderedInsert, hr, List.filter_cons, hk]
    · simp [List.orderedInsert, hr, List.filter_cons, ih]

theorem sortByName_filter {α : Type} (name : α → String) (l : List α) (k : Nat) :
    (sortByName name l).filter (fun a => extractNumber (name a) == k) =
      l.filter (fun a => extractNumber (name a) == k) := by
  induction l with
  | nil => rfl
  | cons x xs ih =>
    show (List.orderedInsert (keyLE name) x (List.insertionSort (keyLE name) xs)).filter _ = _
    by_cases hx : extractNumber (name x) = k
    · subst hx
      rw [filter_orderedInsert_eq name x (List.insertionSort (keyLE name) xs)]
      rw [show List.insertionSort (keyLE name) xs = sortByName name xs from rfl, ih]
      simp [List.filter_cons]
    · rw [filter_orderedInsert_ne name x (List.insertionSort (keyLE name) xs) k hx]
      rw [show List.insertionSort (keyLE name) xs = sortByName name xs from rfl, ih]
      simp [List.filter_cons, hx]

/-- C5: the asset enumerator sorts by the first run of digits in the name
parsed as an integer (key 0 when the name has no digit); the result is a
permutation of the input, sorted by that key, with tied keys keeping their
discovery order (the filter at any key value is unchanged); in particular
`seg2, seg10, seg1` sort numerically as `seg1, seg2, seg10`. -/
theorem c5_numeric_sort :
    (∀ l : List String, List.Perm (getSortedItems l) l) ∧
    (∀ l : List String, List.Sorted (keyLE (fun s => s)) (getSortedItems l)) ∧
    (∀ (l : List String) (k : Nat),
      (getSortedItems l).filter (fun a => extractNumber a == k) =
        l.filter (fun a => extractNumber a == k)) ∧
    (∀ s : String, (∀ c ∈ s.data, c.isDigit = false) → extractNumber s = 0) ∧
    getSortedItems ["seg2", "seg10", "seg1"] = ["seg1", "seg2", "seg10"] := by
  refine ⟨fun l => List.perm_insertionSort _ l,
          fun l => List.sorted_insertionSort _ l,
          fun l k => sortByName_filter (fun s => s) l k,
          fun s h => ?_, ?_⟩
  · unfold extractNumber
    rw [firstDigitRun_eq_none s.data h]
  · decide

/-- Witness for C5: a digit-free name gets sort key 0. -/
theorem c5_witness : extractNumber ("segX") = 0 :=
  c5_numeric_sort.2.2.2.1 ("segX") (by decide)

/-! ## C9: intermediate file names of template-mode segments -/

theorem digChar_spec : ∀ d, d < 10 → ((digChar d).toNat - 48 = d ∧ (digChar d).isDigit = true) := by
  decide

theorem foldl_digits (L : List Nat) (hL : ∀ d ∈ L, d < 10) (a : Nat) :
    (L.reverse.map digChar).foldl (fun x c => 10 * x + (c.toNat - 48)) a =
      a * 10 ^ L.length + Nat.ofDigits 10 L := by
  induction L generalizing a with
  | nil => simp
  | cons d L ih =>
    rw [List.reverse_cons, List.map_append, List.foldl_append]
    rw [ih (fun x hx => hL x (List.mem_cons_of_mem d hx)) a]
    have hd := (digChar_spec d (hL d (List.mem_cons_self d L))).1
    simp only [List.map_cons, List.map_nil, List.foldl_cons, List.foldl_nil, hd,
      Nat.ofDigits_cons, List.length_cons]
    ring

theorem natChars_digitsVal (n : Nat) : digitsVal (natChars n) = n := by
  by_cases h : n = 0
  · subst h; decide
  · unfold natChars digitsVal
    rw [if_neg h, foldl_digits _ (fun d hd => Nat.digits_lt_base (by norm_num) hd) 0]
    simp [Nat.ofDigits_digits]

theorem natChars_isDigit (n : Nat) : ∀ c ∈ natChars n, c.isDigit = true := by
  unfold natChars
  by_cases h : n = 0
  · subst h
    intro c hc
    simp at hc
    subst hc
    decide
  · rw [if_neg h]
    intro c hc
    simp only [List.mem_map] at hc
    obtain ⟨d, hd, rfl⟩ := hc
    exact (digChar_spec d (Nat.digits_lt_base (by norm_num) (List.mem_reverse.mp hd))).2

theorem pad3_digitsVal (n : Nat) : digitsVal (pad3Chars n) = n := by
  unfold pad3Chars digitsVal
  rw [List.foldl_append]
  have hz : ∀ k : Nat, (List.replicate k '0').foldl (fun x c => 10 * x + (c.toNat - 48)) 0 = 0 := by
    intro k
    induction k with
    | zero => rfl
    | succ k ih =>
      rw [List.replicate_succ, List.foldl_cons]
      have hstep : (10 * 0 + (Char.toNat '0' - 48)) = 0 := by decide
      rw [hstep]
      exact ih
  rw [hz]
  exact natChars_digitsVal n

theorem pad3_isDigit (n : Nat) : ∀ c ∈ pad3Chars n, c.isDigit = true := by
  unfold pad3Chars
  intro c hc
  rcases List.mem_append.mp hc with hl | hr
  · have := List.eq_of_mem_replicate hl
    subst this
    decide
  · exact natChars_isDigit n c hr

theorem natChars_inj {m n : Nat} (h : natChars m = natChars n) : m = n := by
  rw [← natChars_digitsVal m, ← natChars_digitsVal n, h]

theorem pad3_inj {m n : Nat} (h : pad3Chars m = pad3Chars n) : m = n := by
  rw [← pad3_digitsVal m, ← pad3_digitsVal n, h]

theorem takeDigits_digits_append (ds : List Char) (c : Char) (rest : List Char)
    (hds : ∀ x ∈ ds, x.isDigit = true) (hc : c.isDigit = false) :
    takeDigits (ds ++ c :: rest) = ds := by
  induction ds with
  | nil => simp [takeDigits, hc]
  | cons d ds ih =>
    simp only [List.cons_append, takeDigits, hds d (List.mem_cons_self d ds), if_true,
      List.append_eq]
    exact congrArg _ (ih (fun x hx => hds x (List.mem_cons_of_mem d hx)))

/-- C9 counterexample: the anchor-loop and template-composite intermediates
are named from the per-run object id only, so two distinct template-mode
segments of the same run (here with image-list ids 1 and 2) use the same
`anchor_loop_…` and `template_part_…` file names: the names used while
building distinct segments are not pairwise distinct. -/
theorem c9_counterexample :
    anchorLoopName 139 ∈ templateSegmentNames 139 1 2 ∧
    anchorLoopName 139 ∈ templateSegmentNames 139 2 2 ∧
    templatePartName 139 ∈ templateSegmentNames 139 1 2 ∧
    templatePartName 139 ∈ templateSegmentNames 139 2 2 := by
  refine ⟨?_, ?_, ?_, ?_⟩ <;> simp [templateSegmentNames]

/-- C9 amended: within one template-mode segment the per-image clip names are
pairwise distinct (indexed by image position), and segments whose image-list
ids differ use distinct clip and slideshow names; but the anchor-loop and
template-composite intermediates are keyed to the per-run object id alone, so
every segment of a run reuses those same two names (they are safe only because
each is deleted before the next segment is built). -/
theorem c9_amended (selfId id1 id2 n1 n2 : Nat) (hid : id1 ≠ id2) :
    (∀ i j : Nat, i ≠ j → clipName id1 i ≠ clipName id1 j) ∧
    (∀ i j : Nat, clipName id1 i ≠ clipName id2 j) ∧
    slideshowName id1 ≠ slideshowName id2 ∧
    (anchorLoopName selfId ∈ templateSegmentNames selfId id1 n1 ∧
      anchorLoopName selfId ∈ templateSegmentNames selfId id2 n2) ∧
    (templatePartName selfId ∈ templateSegmentNames selfId id1 n1 ∧
      templatePartName selfId ∈ templateSegmentNames selfId id2 n2) := by
  refine ⟨?_, ?_, ?_, ⟨?_, ?_⟩, ⟨?_, ?_⟩⟩
  · intro i j hij heq
    apply hij
    have h1 := congrArg String.data heq
    simp only [clipName] at h1
    exact pad3_inj (List.append_cancel_left (List.append_cancel_right h1))
  · intro i j heq
    apply hid
    have h1 := congrArg String.data heq
    simp only [clipName] at h1
    have h2 := List.append_cancel_right h1
    rw [List.append_assoc, List.append_assoc, List.append_assoc, List.append_assoc] at h2
    have h3 := List.append_cancel_left h2
    have h4 := congrArg takeDigits h3
    rw [List.singleton_append, List.singleton_append] at h4
    rw [takeDigits_digits_append _ _ _ (natChars_isDigit id1) (by decide)] at h4
    rw [takeDigits_digits_append _ _ _ (natChars_isDigit id2) (by decide)] at h4
    exact natChars_inj h4
  · intro heq
    apply hid
    have h1 := congrArg String.data heq
    simp only [slideshowName] at h1
    rw [List.append_assoc, List.append_assoc] at h1
    have h2 := List.append_cancel_left h1
    have h3 := congrArg takeDigits h2
    rw [takeDigits_digits_append _ _ _ (natChars_isDigit id1) (by decide)] at h3
    rw [takeDigits_digits_append _ _ _ (natChars_isDigit id2) (by decide)] at h3
    exact natChars_inj h3
  · simp [templateSegmentNames]
  · simp [templateSegmentNames]
  · simp [templateSegmentNames]
  · simp [templateSegmentNames]

/-- Witness for C9 amended at concrete ids. -/
theorem c9_witness :
    clipName 1 0 ≠ clipName 1 1 ∧ clipName 1 0 ≠ clipName 2 5 ∧
    slideshowName 1 ≠ slideshowName 2 ∧
    anchorLoopName 139 ∈ templateSegmentNames 139 1 2 := by
  have h := c9_amended 139 1 2 2 2 (by decide)
  exact ⟨h.1 0 1 (by decide), h.2.1 0 5, h.2.2.1, h.2.2.2.1.1⟩

/-! ## C7 and C8: run-level error handling and count mismatch -/

theorem sortByName_eq_nil {α : Type} (name : α → String) (l : List α) (h : l = []) :
    sortByName name l = [] := by
  rw [h]; rfl

theorem sortByName_ne_nil {α : Type} (name : α → String) (l : List α) (h : l ≠ []) :
    (sortByName name l).isEmpty = false := by
  rw [List.isEmpty_eq_false]
  intro hnil
  have hp := List.perm_insertionSort (keyLE name) l
  rw [show List.insertionSort (keyLE name) l = sortByName name l from rfl, hnil] at hp
  exact h hp.symm.eq_nil

theorem runMain_noAudio (env : Env) (h : env.tracksRaw = []) :
    runMain env = .error .noAudio := by
  unfold runMain
  rw [sortByName_eq_nil Track.name env.tracksRaw h]
  rfl

theorem runMain_noSegments (env : Env) (hf : env.foldersRaw = []) (ht : env.tracksRaw ≠ []) :
    runMain env = .error .noSegments := by
  have h1 := sortByName_eq_nil ImgFolder.name env.foldersRaw hf
  have h2 := sortByName_ne_nil Track.name env.tracksRaw ht
  simp only [runMain, h1, h2]
  simp [segmentsOf, List.zip_nil_right]

theorem createFinalVideo_video (env : Env) (h : env.mode = .video) :
    createFinalVideo env = runMain env := by
  unfold createFinalVideo
  rw [h]

theorem createFinalVideo_error_of_runMain (env : Env) (h : ∃ e, runMain env = .error e) :
    ∃ e, createFinalVideo env = .error e := by
  obtain ⟨mode, tmpl, anch, tr, fl, trans, rec⟩ := env
  cases mode with
  | video => exact h
  | withTemplate =>
    cases tmpl with
    | none => exact ⟨.templateMissing, rfl⟩
    | some img =>
      cases anch with
      | false => exact ⟨.anchorMissing, rfl⟩
      | true =>
        cases hd : detectTemplateRegions img with
        | none =>
          refine ⟨.regionDetection, ?_⟩
          unfold createFinalVideo
          simp [hd]
        | some r =>
          obtain ⟨e, he⟩ := h
          refine ⟨e, ?_⟩
          unfold createFinalVideo
          simp [hd]
          exact he

/-- C7 counterexample: with one audio track and zero image folders the run
aborts with `NoSegmentsProduced` (the empty positional pairing yields zero
segments), which is not in the specification's `AssetMissing` class, contrary
to the claim that zero image folders yields `AssetMissing`. -/
theorem c7_counterexample :
    createFinalVideo envC7 = .error .noSegments ∧
    assetMissingSpec .noSegments = false :=
  ⟨rfl, rfl⟩

/-- C7 amended: zero audio tracks aborts with the no-audio error (the
`AssetMissing` class); zero image folders with at least one audio track aborts
with `NoSegmentsProduced`; in each case the run fails with an error and no
output file is produced, in every mode. -/
theorem c7_amended :
    (∀ env : Env, env.mode = .video → env.tracksRaw = [] →
      createFinalVideo env = .error .noAudio) ∧
    (∀ env : Env, env.mode = .video → env.foldersRaw = [] → env.tracksRaw ≠ [] →
      createFinalVideo env = .error .noSegments) ∧
    (∀ env : Env, env.tracksRaw = [] → ∃ e, createFinalVideo env = .error e) ∧
    (∀ env : Env, env.foldersRaw = [] → ∃ e, createFinalVideo env = .error e) := by
  refine ⟨?_, ?_, ?_, ?_⟩
  · intro env hm ht
    rw [createFinalVideo_video env hm]
    exact runMain_noAudio env ht
  · intro env hm hf ht
    rw [createFinalVideo_video env hm]
    exact runMain_noSegments env hf ht
  · intro env ht
    exact createFinalVideo_error_of_runMain env ⟨.noAudio, runMain_noAudio env ht⟩
  · intro env hf
    by_cases ht : env.tracksRaw = []
    · exact createFinalVideo_error_of_runMain env ⟨.noAudio, runMain_noAudio env ht⟩
    · exact createFinalVideo_error_of_runMain env ⟨.noSegments, runMain_noSegments env hf ht⟩

/-- Witness for C7 amended at the concrete empty-folder environments. -/
theorem c7_witness :
    createFinalVideo envA = .error .noAudio ∧
    createFinalVideo envC7 = .error .noSegments := by
  refine ⟨c7_amended.1 envA rfl rfl, c7_amended.2.1 envC7 rfl rfl ?_⟩
  simp [envC7]

theorem segmentsOf_video_cons (t : Track) (ts : List Track) (f : ImgFolder)
    (fs : List ImgFolder) (hf : f.images ≠ []) :
    segmentsOf .video (t :: ts) (f :: fs) =
      (min ((f.images.map (fun _ => t.dur / (f.images.length : ℚ))).foldl (· + ·) 0) t.dur) ::
        segmentsOf .video ts fs := by
  have hfE : f.images.isEmpty = false := by
    rw [List.isEmpty_eq_false]
    exact hf
  simp [segmentsOf, List.zip_cons_cons, List.filterMap_cons, createSegmentVideoSimple, hfE, hf]

theorem segmentsOf_video_len (tracks : List Track) (folders : List ImgFolder)
    (h : ∀ f ∈ folders, f.images ≠ []) :
    (segmentsOf .video tracks folders).length = min tracks.length folders.length := by
  induction tracks generalizing folders with
  | nil => simp [segmentsOf]
  | cons t ts ih =>
    cases folders with
    | nil => simp [segmentsOf]
    | cons f fs =>
      rw [segmentsOf_video_cons t ts f fs (h f (List.mem_cons_self f fs)), List.length_cons,
        ih fs (fun x hx => h x (List.mem_cons_of_mem f hx))]
      simp [List.length_cons]
      omega

/-- C8: whenever the audio-track and image-folder counts differ (both lists
being nonempty and every folder holding at least one image), the engine
records the count-mismatch warning rather than failing, and processes exactly
`min(trackCount, folderCount)` segments by positional pairing. -/
theorem c8_count_mismatch (env : Env) (hm : env.mode = .video)
    (ht : env.tracksRaw ≠ []) (hf : env.foldersRaw ≠ [])
    (hne : env.tracksRaw.length ≠ env.foldersRaw.length)
    (him : ∀ f ∈ env.foldersRaw, f.images ≠ []) :
    ∃ out : RunOutput, createFinalVideo env = .ok out ∧
      out.warnings = ["count_mismatch"] ∧
      out.segmentDurations.length = min env.tracksRaw.length env.foldersRaw.length := by
  rw [createFinalVideo_video env hm]
  have hl1 : (sortByName Track.name env.tracksRaw).length = env.tracksRaw.length :=
    (List.perm_insertionSort (keyLE Track.name) env.tracksRaw).length_eq
  have hl2 : (sortByName ImgFolder.name env.foldersRaw).length = env.foldersRaw.length :=
    (List.perm_insertionSort (keyLE ImgFolder.name) env.foldersRaw).length_eq
  have hmem : ∀ f ∈ sortByName ImgFolder.name env.foldersRaw, f.images ≠ [] := by
    intro f hfm
    exact him f ((List.perm_insertionSort (keyLE ImgFolder.name) env.foldersRaw).subset hfm)
  have hseg := segmentsOf_video_len (sortByName Track.name env.tracksRaw)
    (sortByName ImgFolder.name env.foldersRaw) hmem
  rw [hl1, hl2] at hseg
  have htpos : env.tracksRaw.length ≠ 0 := by
    intro hz
    exact ht (List.eq_nil_of_length_eq_zero hz)
  have hfpos : env.foldersRaw.length ≠ 0 := by
    intro hz
    exact hf (List.eq_nil_of_length_eq_zero hz)
  have hsegE : (segmentsOf env.mode (sortByName Track.name env.tracksRaw)
      (sortByName ImgFolder.name env.foldersRaw)).isEmpty = false := by
    rw [List.isEmpty_eq_false]
    intro hnil
    rw [hm] at hnil
    rw [hnil] at hseg
    simp at hseg
    omega
  have hcond : (sortByName Track.name env.tracksRaw).length ≠
      (sortByName ImgFolder.name env.foldersRaw).length := by
    rw [hl1, hl2]
    exact hne
  simp only [runMain, sortByName_ne_nil Track.name env.tracksRaw ht, hsegE,
    Bool.false_eq_true, if_false, ite_false, if_pos hcond]
  refine ⟨_, rfl, rfl, ?_⟩
  simp only [hm]
  exact hseg

/-- Witness for C8: five audio tracks against three nonempty image folders
yield exactly three segments and the warning. -/
theorem c8_witness :
    ∃ out : RunOutput, createFinalVideo envC8 = .ok out ∧
      out.warnings = ["count_mismatch"] ∧
      out.segmentDurations.length = 3 := by
  obtain ⟨out, h1, h2, h3⟩ := c8_count_mismatch envC8 rfl (by simp [envC8]) (by simp [envC8])
    (by simp [envC8]) (by intro f hfm; fin_cases hfm <;> simp)
  exact ⟨out, h1, h2, by simpa using h3⟩

/-! ## Region detector: adjacency and reachability -/

theorem mem_nbrsOf {p q : Int × Int} :
    q ∈ nbrsOf p ↔ (q = (p.1, p.2 - 1) ∨ q = (p.1, p.2 + 1) ∨
      q = (p.1 - 1, p.2) ∨ q = (p.1 + 1, p.2)) := by
  simp [nbrsOf]

theorem nbrsOf_symm {p q : Int × Int} (h : q ∈ nbrsOf p) : p ∈ nbrsOf q := by
  rcases mem_nbrsOf.mp h with h1 | h1 | h1 | h1 <;> subst h1 <;>
    simp [nbrsOf, Prod.ext_iff]

theorem greenAdj_symm (img : Img) : Symmetric (greenAdj img) :=
  fun _ _ h => ⟨h.2.1, h.1, nbrsOf_symm h.2.2⟩

theorem reach_symm (img : Img) {p q : Int × Int} (h : reach img p q) : reach img q p :=
  Relation.ReflTransGen.symmetric (greenAdj_symm img) h

theorem reach_green {img : Img} {p q : Int × Int} (hp : greenPt img p) (h : reach img p q) :
    greenPt img q := by
  induction h with
  | refl => exact hp
  | tail _ hbc _ => exact hbc.2.1

theorem compSet_eq {img : Img} {p q : Int × Int} (h : reach img p q) :
    compSet img q = compSet img p :=
  Set.ext fun x => ⟨fun hx => h.trans hx, fun hx => (reach_symm img h).trans hx⟩

theorem greenPt_bounds {img : Img} {c : Int × Int} (h : greenPt img c) :
    0 ≤ c.1 ∧ c.1 < (img.width : Int) ∧ 0 ≤ c.2 ∧ c.2 < (img.height : Int) := by
  obtain ⟨hm, _⟩ := h
  simp only [inBoundsF, Finset.mem_product, Finset.mem_Icc] at hm
  omega

theorem closed_reach {img : Img} {V : List (Int × Int)}
    (hcl : ∀ v ∈ V, ∀ q ∈ nbrsOf v, greenPt img q → q ∈ V)
    {s x : Int × Int} (hs : s ∈ V) (h : reach img s x) : x ∈ V := by
  induction h with
  | refl => exact hs
  | tail _ hbc ih => exact hcl _ ih _ hbc.2.2 hbc.2.1

theorem closed_not_reach {img : Img} {V : List (Int × Int)}
    (hcl : ∀ v ∈ V, ∀ q ∈ nbrsOf v, greenPt img q → q ∈ V)
    {s x : Int × Int} (hs : s ∉ V) (hx : x ∈ V) (h : reach img s x) : False :=
  hs (closed_reach hcl hx (reach_symm img h))

/-! ## The flood-fill loop: soundness, completeness and closure -/

theorem floodFillAux_spec (img : Img) (s : Int × Int) :
    ∀ (fuel : Nat) (stack visited region : List (Int × Int)),
      5 * ((inBoundsF img \ visited.toFinset).card) + stack.length ≤ fuel →
      (∀ p ∈ stack, greenPt img p → reach img s p) →
      (∀ v ∈ visited, ∀ q ∈ nbrsOf v, greenPt img q → q ∈ visited ∨ q ∈ stack) →
      ∃ nw : List (Int × Int),
        floodFillAux img fuel stack visited region = (nw.reverse ++ visited, region ++ nw) ∧
        nw.Nodup ∧
        (∀ p ∈ nw, greenPt img p ∧ reach img s p ∧ p ∉ visited) ∧
        (∀ v ∈ nw.reverse ++ visited, ∀ q ∈ nbrsOf v, greenPt img q →
          q ∈ nw.reverse ++ visited) ∧
        (∀ p ∈ stack, greenPt img p → p ∈ nw.reverse ++ visited) := by
  intro fuel
  induction fuel with
  | zero =>
    intro stack visited region hfuel hstack hcl
    have hst : stack = [] := by
      cases stack with
      | nil => rfl
      | cons a l =>
        exfalso
        simp only [List.length_cons] at hfuel
        omega
    subst hst
    refine ⟨[], by simp [floodFillAux], List.nodup_nil, by simp, ?_, by simp⟩
    intro v hv q hq hg
    simp only [List.reverse_nil, List.nil_append] at hv ⊢
    rcases hcl v hv q hq hg with h | h
    · exact h
    · simp at h
  | succ fuel ih =>
    intro stack visited region hfuel hstack hcl
    cases stack with
    | nil =>
      refine ⟨[], by simp [floodFillAux], List.nodup_nil, by simp, ?_, by simp⟩
      intro v hv q hq hg
      simp only [List.reverse_nil, List.nil_append] at hv ⊢
      rcases hcl v hv q hq hg with h | h
      · exact h
      · simp at h
    | cons c rest =>
      by_cases hskip : c ∈ visited ∨ c.1 < 0 ∨ c.2 < 0 ∨ (img.width : Int) ≤ c.1 ∨
          (img.height : Int) ≤ c.2
      · have heq : floodFillAux img (fuel + 1) (c :: rest) visited region =
            floodFillAux img fuel rest visited region := by
          simp only [floodFillAux]
          rw [if_pos hskip]
        have hfuel2 : 5 * ((inBoundsF img \ visited.toFinset).card) + rest.length ≤ fuel := by
          simp only [List.length_cons] at hfuel
          omega
        have hstack2 : ∀ p ∈ rest, greenPt img p → reach img s p :=
          fun p hp => hstack p (List.mem_cons_of_mem c hp)
        have hcl2 : ∀ v ∈ visited, ∀ q ∈ nbrsOf v, greenPt img q → q ∈ visited ∨ q ∈ rest := by
          intro v hv q hq hg
          rcases hcl v hv q hq hg with h | h
          · exact Or.inl h
          · rcases List.mem_cons.mp h with rfl | h2
            · rcases hskip with h1 | h1
              · exact Or.inl h1
              · exfalso
                have hb := greenPt_bounds hg
                omega
            · exact Or.inr h2
        obtain ⟨nw, e1, e2, e3, e4, e5⟩ := ih rest visited region hfuel2 hstack2 hcl2
        refine ⟨nw, by rw [heq, e1], e2, e3, e4, ?_⟩
        intro p hp hg
        rcases List.mem_cons.mp hp with rfl | hp2
        · rcases hskip with h1 | h1
          · exact List.mem_append.mpr (Or.inr h1)
          · exfalso
            have hb := greenPt_bounds hg
            omega
        · exact e5 p hp2 hg
      · push_neg at hskip
        obtain ⟨hnv, hb1, hb2, hb3, hb4⟩ := hskip
        have hC : ¬(c ∈ visited ∨ c.1 < 0 ∨ c.2 < 0 ∨ (img.width : Int) ≤ c.1 ∨
            (img.height : Int) ≤ c.2) := by
          push_neg
          exact ⟨hnv, hb1, hb2, hb3, hb4⟩
        by_cases hgreen : isGreen (img.pix c.1 c.2) = false
        · have heq : floodFillAux img (fuel + 1) (c :: rest) visited region =
              floodFillAux img fuel rest visited region := by
            simp only [floodFillAux]
            rw [if_neg hC, if_pos hgreen]
          have hfuel2 : 5 * ((inBoundsF img \ visited.toFinset).card) + rest.length ≤ fuel := by
            simp only [List.length_cons] at hfuel
            omega
          have hstack2 : ∀ p ∈ rest, greenPt img p → reach img s p :=
            fun p hp => hstack p (List.mem_cons_of_mem c hp)
          have hcl2 : ∀ v ∈ visited, ∀ q ∈ nbrsOf v, greenPt img q →
              q ∈ visited ∨ q ∈ rest := by
            intro v hv q hq hg
            rcases hcl v hv q hq hg with h | h
            · exact Or.inl h
            · rcases List.mem_cons.mp h with rfl | h2
              · exfalso
                rw [hg.2] at hgreen
                simp at hgreen
              · exact Or.inr h2
          obtain ⟨nw, e1, e2, e3, e4, e5⟩ := ih rest visited region hfuel2 hstack2 hcl2
          refine ⟨nw, by rw [heq, e1], e2, e3, e4, ?_⟩
          intro p hp hg
          rcases List.mem_cons.mp hp with rfl | hp2
          · exfalso
            rw [hg.2] at hgreen
            simp at hgreen
          · exact e5 p hp2 hg
        · have hgreenT : isGreen (img.pix c.1 c.2) = true := by
            rcases Bool.eq_false_or_eq_true (isGreen (img.pix c.1 c.2)) with h | h
            · exact h
            · exact absurd h hgreen
          have hgc : greenPt img c := by
            refine ⟨?_, hgreenT⟩
            simp only [inBoundsF, Finset.mem_product, Finset.mem_Icc]
            omega
          have hreachc : reach img s c := hstack c (List.mem_cons_self c rest) hgc
          have heq : floodFillAux img (fuel + 1) (c :: rest) visited region =
              floodFillAux img fuel (nbrsOf c ++ rest) (c :: visited) (region ++ [c]) := by
            simp only [floodFillAux]
            rw [if_neg hC, if_neg (by simp [hgreenT])]
          have hcf : c ∈ inBoundsF img \ visited.toFinset :=
            Finset.mem_sdiff.mpr ⟨hgc.1, fun h => hnv (List.mem_toFinset.mp h)⟩
          have hins : inBoundsF img \ (c :: visited).toFinset =
              (inBoundsF img \ visited.toFinset).erase c := by
            rw [List.toFinset_cons]
            ext x
            simp only [Finset.mem_sdiff, Finset.mem_insert, Finset.mem_erase]
            tauto
          have hcard : (inBoundsF img \ (c :: visited).toFinset).card =
              (inBoundsF img \ visited.toFinset).card - 1 := by
            rw [hins]
            exact Finset.card_erase_of_mem hcf
          have hcpos : 0 < (inBoundsF img \ visited.toFinset).card :=
            Finset.card_pos.mpr ⟨c, hcf⟩
          have hfuel2 : 5 * ((inBoundsF img \ (c :: visited).toFinset).card) +
              (nbrsOf c ++ rest).length ≤ fuel := by
            rw [hcard]
            have hn4 : (nbrsOf c).length = 4 := by simp [nbrsOf]
            simp only [List.length_append, hn4, List.length_cons] at hfuel ⊢
            omega
          have hstack2 : ∀ p ∈ nbrsOf c ++ rest, greenPt img p → reach img s p := by
            intro p hp hg
            rcases List.mem_append.mp hp with h | h
            · exact hreachc.tail ⟨hgc, hg, h⟩
            · exact hstack p (List.mem_cons_of_mem c h) hg
          have hcl2 : ∀ v ∈ c :: visited, ∀ q ∈ nbrsOf v, greenPt img q →
              q ∈ c :: visited ∨ q ∈ nbrsOf c ++ rest := by
            intro v hv q hq hg
            rcases List.mem_cons.mp hv with rfl | hv2
            · exact Or.inr (List.mem_append.mpr (Or.inl hq))
            · rcases hcl v hv2 q hq hg with h | h
              · exact Or.inl (List.mem_cons_of_mem c h)
              · rcases List.mem_cons.mp h with rfl | h2
                · exact Or.inl (List.mem_cons_self q visited)
                · exact Or.inr (List.mem_append.mpr (Or.inr h2))
          obtain ⟨nw, e1, e2, e3, e4, e5⟩ :=
            ih (nbrsOf c ++ rest) (c :: visited) (region ++ [c]) hfuel2 hstack2 hcl2
          have hshape : (c :: nw).reverse ++ visited = nw.reverse ++ (c :: visited) := by
            simp
          refine ⟨c :: nw, ?_, ?_, ?_, ?_, ?_⟩
          · rw [heq, e1]
            rw [hshape]
            simp [List.append_assoc]
          · refine List.nodup_cons.mpr ⟨?_, e2⟩
            intro hcnw
            exact (e3 c hcnw).2.2 (List.mem_cons_self c visited)
          · intro p hp
            rcases List.mem_cons.mp hp with rfl | hp2
            · exact ⟨hgc, hreachc, hnv⟩
            · obtain ⟨g3, r3, nv3⟩ := e3 p hp2
              exact ⟨g3, r3, fun h => nv3 (List.mem_cons_of_mem c h)⟩
          · rw [hshape]
            exact e4
          · intro p hp hg
            rw [hshape]
            rcases List.mem_cons.mp hp with rfl | hp2
            · exact List.mem_append.mpr (Or.inr (List.mem_cons_self p visited))
            · exact e5 p (List.mem_append.mpr (Or.inr hp2)) hg

theorem inBoundsF_card (img : Img) : (inBoundsF img).card = img.width * img.height := by
  rw [inBoundsF, Finset.card_product, Int.card_Icc, Int.card_Icc]
  have h1 : ((img.width : Int) - 1 + 1 - 0).toNat = img.width := by omega
  have h2 : ((img.height : Int) - 1 + 1 - 0).toNat = img.height := by omega
  rw [h1, h2]

theorem floodFill_spec (img : Img) (s : Int × Int) (visited : List (Int × Int))
    (hgs : greenPt img s) (hs : s ∉ visited)
    (hcl : ∀ v ∈ visited, ∀ q ∈ nbrsOf v, greenPt img q → q ∈ visited) :
    ∃ nw : List (Int × Int),
      floodFill img s visited = (nw.reverse ++ visited, nw) ∧
      nw.Nodup ∧
      (∀ x, x ∈ nw ↔ reach img s x) ∧
      (∀ x ∈ nw, x ∉ visited) ∧
      (∀ v ∈ nw.reverse ++ visited, ∀ q ∈ nbrsOf v, greenPt img q →
        q ∈ nw.reverse ++ visited) := by
  have hbound : 5 * ((inBoundsF img \ visited.toFinset).card) +
      ([s] : List (Int × Int)).length ≤ ffFuel img := by
    have hle : (inBoundsF img \ visited.toFinset).card ≤ (inBoundsF img).card :=
      Finset.card_le_card Finset.sdiff_subset
    rw [inBoundsF_card] at hle
    have hfe : ffFuel img = 5 * (img.width * img.height) + 1 := by
      unfold ffFuel
      ring
    rw [hfe]
    simp only [List.length_cons, List.length_nil]
    omega
  have hstack : ∀ p ∈ ([s] : List (Int × Int)), greenPt img p → reach img s p := by
    intro p hp
    simp only [List.mem_singleton] at hp
    subst hp
    intro
    exact Relation.ReflTransGen.refl
  have hcl2 : ∀ v ∈ visited, ∀ q ∈ nbrsOf v, greenPt img q →
      q ∈ visited ∨ q ∈ ([s] : List (Int × Int)) :=
    fun v hv q hq hg => Or.inl (hcl v hv q hq hg)
  obtain ⟨nw, f1, f2, f3, f4, f5⟩ :=
    floodFillAux_spec img s (ffFuel img) [s] visited [] hbound hstack hcl2
  have hsfin : s ∈ nw.reverse ++ visited := f5 s (List.mem_cons_self s []) hgs
  refine ⟨nw, by simpa [floodFill] using f1, f2, ?_, fun x hx => (f3 x hx).2.2, f4⟩
  intro x
  constructor
  · intro hx
    exact (f3 x hx).2.1
  · intro hx
    have hxf : x ∈ nw.reverse ++ visited := closed_reach f4 hsfin hx
    rcases List.mem_append.mp hxf with h | h
    · exact List.mem_reverse.mp h
    · exact (closed_not_reach hcl hs h hx).elim

theorem ncard_of_char {img : Img} {s : Int × Int} (nw : List (Int × Int)) (hnd : nw.Nodup)
    (hchar : ∀ x, x ∈ nw ↔ reach img s x) : (compSet img s).ncard = nw.length := by
  have hset : compSet img s = (nw.toFinset : Set (Int × Int)) := by
    ext x
    simp only [compSet, Set.mem_setOf_eq, List.coe_toFinset]
    exact (hchar x).symm
  rw [hset, Set.ncard_coe_Finset]
  exact List.toFinset_card_of_nodup hnd

theorem char_shift {img : Img} {s v : Int × Int} (nw : List (Int × Int))
    (hchar : ∀ x, x ∈ nw ↔ reach img s x) (hv : reach img s v) :
    ∀ x, x ∈ nw ↔ reach img v x := by
  intro x
  rw [hchar x]
  constructor
  · intro h
    exact (reach_symm img hv).trans h
  · intro h
    exact hv.trans h

theorem scanStep_inv (img : Img) (st : List (Int × Int) × List (List (Int × Int)))
    (p : Int × Int) (hp : p ∈ inBoundsF img) (hinv : ScanInv img st) :
    ScanInv img (scanStep img st p) ∧
    (∀ r ∈ st.2, r ∈ (scanStep img st p).2) ∧
    (greenPt img p → 100 < (compSet img p).ncard →
      ∃ r ∈ (scanStep img st p).2, ∀ x, x ∈ r ↔ reach img p x) := by
  obtain ⟨hg1, hg2, hg3, hg4, hg5⟩ := hinv
  by_cases hcond : p ∉ st.1 ∧ isGreen (img.pix p.1 p.2) = true
  · have hgp : greenPt img p := ⟨hp, hcond.2⟩
    obtain ⟨nw, f1, f2, f3, f4, f5⟩ := floodFill_spec img p st.1 hgp hcond.1 hg2
    have hncard : (compSet img p).ncard = nw.length := ncard_of_char nw f2 f3
    have hstep : scanStep img st p =
        (nw.reverse ++ st.1, if 100 < nw.length then st.2 ++ [nw] else st.2) := by
      simp only [scanStep]
      rw [if_pos hcond, f1]
    rw [hstep]
    have hVgreen : ∀ v ∈ nw.reverse ++ st.1, greenPt img v := by
      intro v hv
      rcases List.mem_append.mp hv with h | h
      · exact reach_green hgp ((f3 v).mp (List.mem_reverse.mp h))
      · exact hg1 v h
    refine ⟨⟨hVgreen, f5, ?_, ?_, ?_⟩, ?_, ?_⟩
    · intro r hr
      by_cases hbig : 100 < nw.length
      · rw [if_pos hbig] at hr
        rcases List.mem_append.mp hr with hold | hnew
        · obtain ⟨s0, a1, a2, a3, a4, a5⟩ := hg3 r hold
          exact ⟨s0, a1, a2, a3, a4, fun x hx => List.mem_append.mpr (Or.inr (a5 x hx))⟩
        · rw [List.mem_singleton] at hnew
          subst hnew
          exact ⟨p, hgp, f3, f2, hbig,
            fun x hx => List.mem_append.mpr (Or.inl (List.mem_reverse.mpr hx))⟩
      · rw [if_neg hbig] at hr
        obtain ⟨s0, a1, a2, a3, a4, a5⟩ := hg3 r hr
        exact ⟨s0, a1, a2, a3, a4, fun x hx => List.mem_append.mpr (Or.inr (a5 x hx))⟩
    · by_cases hbig : 100 < nw.length
      · rw [if_pos hbig]
        rw [List.pairwise_append]
        refine ⟨hg4, by simp, ?_⟩
        intro a ha b hb x hxa
        rw [List.mem_singleton] at hb
        subst hb
        intro hxnw
        obtain ⟨s0, a1, a2, a3, a4, a5⟩ := hg3 a ha
        exact f4 x hxnw (a5 x hxa)
      · rw [if_neg hbig]
        exact hg4
    · intro v hv hbig5
      rcases List.mem_append.mp hv with hnwv | hold
      · have hvnw : v ∈ nw := List.mem_reverse.mp hnwv
        have hrv : reach img p v := (f3 v).mp hvnw
        have hncv : (compSet img v).ncard = nw.length := by
          rw [compSet_eq hrv, hncard]
        have hbigl : 100 < nw.length := by
          rw [← hncv]
          exact hbig5
        refine ⟨nw, ?_, char_shift nw f3 hrv⟩
        rw [if_pos hbigl]
        exact List.mem_append.mpr (Or.inr (List.mem_cons_self nw []))
      · obtain ⟨r, hr, hcr⟩ := hg5 v hold hbig5
        refine ⟨r, ?_, hcr⟩
        by_cases hbig : 100 < nw.length
        · rw [if_pos hbig]
          exact List.mem_append.mpr (Or.inl hr)
        · rw [if_neg hbig]
          exact hr
    · intro r hr
      by_cases hbig : 100 < nw.length
      · rw [if_pos hbig]
        exact List.mem_append.mpr (Or.inl hr)
      · rw [if_neg hbig]
        exact hr
    · intro hgp2 hbig2
      have hbigl : 100 < nw.length := by
        rw [← hncard]
        exact hbig2
      refine ⟨nw, ?_, f3⟩
      rw [if_pos hbigl]
      exact List.mem_append.mpr (Or.inr (List.mem_cons_self nw []))
  · have hstep : scanStep img st p = st := by
      simp only [scanStep]
      rw [if_neg hcond]
    rw [hstep]
    refine ⟨⟨hg1, hg2, hg3, hg4, hg5⟩, fun r hr => hr, ?_⟩
    intro hgp hbig
    by_cases hmem : p ∈ st.1
    · exact hg5 p hmem hbig
    · exact (hcond ⟨hmem, hgp.2⟩).elim

theorem scanFold_inv (img : Img) :
    ∀ (seeds : List (Int × Int)), (∀ p ∈ seeds, p ∈ inBoundsF img) →
      ∀ st, ScanInv img st →
        ScanInv img (seeds.foldl (scanStep img) st) ∧
        (∀ r ∈ st.2, r ∈ (seeds.foldl (scanStep img) st).2) := by
  intro seeds
  induction seeds with
  | nil =>
    intro _ st h
    exact ⟨h, fun r hr => hr⟩
  | cons g gs ih =>
    intro hseeds st h
    have hg := hseeds g (List.mem_cons_self g gs)
    obtain ⟨h1, h2, _⟩ := scanStep_inv img st g hg h
    obtain ⟨h3, h4⟩ := ih (fun p hp => hseeds p (List.mem_cons_of_mem g hp)) (scanStep img st g) h1
    rw [List.foldl_cons]
    exact ⟨h3, fun r hr => h4 r (h2 r hr)⟩

theorem gridVals_lt (n : Nat) : ∀ x ∈ gridVals n, x < n := by
  intro x hx
  simp only [gridVals, List.mem_map, List.mem_range] at hx
  obtain ⟨k, hk, rfl⟩ := hx
  omega

theorem scanSeeds_inBounds (img : Img) : ∀ p ∈ scanSeeds img, p ∈ inBoundsF img := by
  intro p hp
  unfold scanSeeds at hp
  rw [List.mem_flatMap] at hp
  obtain ⟨y, hy, hp2⟩ := hp
  rw [List.mem_map] at hp2
  obtain ⟨x, hx, rfl⟩ := hp2
  have hxW : x < img.width := gridVals_lt _ x hx
  have hyH : y < img.height := gridVals_lt _ y hy
  simp only [inBoundsF, Finset.mem_product, Finset.mem_Icc]
  refine ⟨⟨?_, ?_⟩, ?_, ?_⟩ <;> omega

theorem scanRegions_inv (img : Img) : ScanInv img (scanRegions img) := by
  have hbase : ScanInv img (([], []) : List (Int × Int) × List (List (Int × Int))) :=
    ⟨by simp, by simp, by simp, List.Pairwise.nil, by simp⟩
  exact (scanFold_inv img (scanSeeds img) (scanSeeds_inBounds img) ([], []) hbase).1

/-! ## C6: fewer than two qualifying components means detection fails -/

/-- C6: for every template image in which fewer than two connected key-color
components have more than 100 pixels (formally: any two key-colored pixels
with components of more than 100 pixels lie in the same component), region
detection fails rather than returning regions, and a template-mode run with
that template, the anchor present, aborts with the region-detection failure. -/
theorem c6_detection_fails (img : Img)
    (h : ∀ p q : Int × Int, greenPt img p → greenPt img q →
      100 < (compSet img p).ncard → 100 < (compSet img q).ncard →
      compSet img p = compSet img q) :
    detectTemplateRegions img = none ∧
    (∀ env : Env, env.mode = .withTemplate → env.template = some img →
      env.anchorExists = true → createFinalVideo env = .error .regionDetection) := by
  obtain ⟨hg1, hg2, hg3, hg4, hg5⟩ := scanRegions_inv img
  have hlen : (scanRegions img).2.length < 2 := by
    by_contra hlen2
    push_neg at hlen2
    obtain ⟨r1, rest1, hr1⟩ : ∃ r1 rest1, (scanRegions img).2 = r1 :: rest1 := by
      cases hl : (scanRegions img).2 with
      | nil =>
        rw [hl] at hlen2
        simp at hlen2
      | cons a l => exact ⟨a, l, rfl⟩
    obtain ⟨r2, rest2, hr2⟩ : ∃ r2 rest2, rest1 = r2 :: rest2 := by
      cases hl : rest1 with
      | nil =>
        rw [hr1, hl] at hlen2
        simp at hlen2
      | cons a l => exact ⟨a, l, rfl⟩
    rw [hr1, hr2] at hg3 hg4
    obtain ⟨s1, hs1g, hc1, hnd1, hl1, _⟩ := hg3 r1 (List.mem_cons_self _ _)
    obtain ⟨s2, hs2g, hc2, hnd2, hl2, _⟩ :=
      hg3 r2 (List.mem_cons_of_mem _ (List.mem_cons_self _ _))
    have hb1 : 100 < (compSet img s1).ncard := by
      rw [ncard_of_char r1 hnd1 hc1]
      exact hl1
    have hb2 : 100 < (compSet img s2).ncard := by
      rw [ncard_of_char r2 hnd2 hc2]
      exact hl2
    have hcomp := h s1 s2 hs1g hs2g hb1 hb2
    have hs2r1 : s2 ∈ r1 := by
      rw [hc1 s2]
      have hmem : s2 ∈ compSet img s1 := by
        rw [hcomp]
        exact Relation.ReflTransGen.refl
      exact hmem
    have hs2r2 : s2 ∈ r2 := (hc2 s2).mpr Relation.ReflTransGen.refl
    have hdisj := List.pairwise_cons.mp hg4
    exact hdisj.1 r2 (List.mem_cons_self _ _) s2 hs2r1 hs2r2
  have hnone : detectTemplateRegions img = none := by
    unfold detectTemplateRegions
    rw [if_pos hlen]
  refine ⟨hnone, ?_⟩
  intro env h1 h2 h3
  obtain ⟨mode, tmpl, anch, tr, fl, trans, rec⟩ := env
  simp only at h1 h2 h3
  subst h1
  subst h2
  subst h3
  simp [createFinalVideo, hnone]

/-- Witness for C6: the all-black template has no key-colored pixel, so
detection fails and the template-mode run aborts. -/
theorem c6_witness :
    detectTemplateRegions blackImg = none ∧
    createFinalVideo envBlack = .error .regionDetection := by
  have hb : ∀ p q : Int × Int, greenPt blackImg p → greenPt blackImg q →
      100 < (compSet blackImg p).ncard → 100 < (compSet blackImg q).ncard →
      compSet blackImg p = compSet blackImg q := by
    intro p q hp _ _ _
    exfalso
    have h2 := hp.2
    simp [blackImg, isGreen] at h2
  exact ⟨(c6_detection_fails blackImg hb).1,
    (c6_detection_fails blackImg hb).2 envBlack rfl rfl rfl⟩

/-! ## C1: rectangles, their components and bounding boxes -/

theorem rowReach (img : Img) (x1 y1 x2 y2 : Int)
    (hgr : ∀ p : Int × Int, inRect x1 y1 x2 y2 p → greenPt img p)
    (x y : Int) (hx1 : x1 ≤ x) (hy : y1 ≤ y ∧ y ≤ y2) :
    ∀ n : Int, x ≤ n → n ≤ x2 → reach img (x, y) (n, y) := by
  refine Int.le_induction ?_ ?_
  · intro _
    exact Relation.ReflTransGen.refl
  · intro n hxn ih hn1
    have hr1 : reach img (x, y) (n, y) := ih (by omega)
    have hgn : greenPt img (n, y) := hgr (n, y) ⟨by omega, by omega, hy.1, hy.2⟩
    have hgn1 : greenPt img (n + 1, y) := hgr (n + 1, y) ⟨by omega, by omega, hy.1, hy.2⟩
    exact hr1.tail ⟨hgn, hgn1, by simp [nbrsOf]⟩

theorem colReach (img : Img) (x1 y1 x2 y2 : Int)
    (hgr : ∀ p : Int × Int, inRect x1 y1 x2 y2 p → greenPt img p)
    (x y : Int) (hx : x1 ≤ x ∧ x ≤ x2) (hy1 : y1 ≤ y) :
    ∀ n : Int, y ≤ n → n ≤ y2 → reach img (x, y) (x, n) := by
  refine Int.le_induction ?_ ?_
  · intro _
    exact Relation.ReflTransGen.refl
  · intro n hyn ih hn1
    have hr1 : reach img (x, y) (x, n) := ih (by omega)
    have hgn : greenPt img (x, n) := hgr (x, n) ⟨hx.1, hx.2, by omega, by omega⟩
    have hgn1 : greenPt img (x, n + 1) := hgr (x, n + 1) ⟨hx.1, hx.2, by omega, by omega⟩
    exact hr1.tail ⟨hgn, hgn1, by simp [nbrsOf]⟩

theorem rectReach (img : Img) (x1 y1 x2 y2 : Int)
    (hgr : ∀ p : Int × Int, inRect x1 y1 x2 y2 p → greenPt img p)
    (p q : Int × Int) (hp : inRect x1 y1 x2 y2 p) (hq : inRect x1 y1 x2 y2 q) :
    reach img p q := by
  obtain ⟨hp1, hp2, hp3, hp4⟩ := hp
  obtain ⟨hq1, hq2, hq3, hq4⟩ := hq
  have hmid : reach img (p.1, p.2) (q.1, p.2) := by
    rcases le_total p.1 q.1 with h | h
    · exact rowReach img x1 y1 x2 y2 hgr p.1 p.2 hp1 ⟨hp3, hp4⟩ q.1 h hq2
    · exact reach_symm img (rowReach img x1 y1 x2 y2 hgr q.1 p.2 hq1 ⟨hp3, hp4⟩ p.1 h hp2)
  have hv : reach img (q.1, p.2) (q.1, q.2) := by
    rcases le_total p.2 q.2 with h | h
    · exact colReach img x1 y1 x2 y2 hgr q.1 p.2 ⟨hq1, hq2⟩ hp3 q.2 h hq4
    · exact reach_symm img (colReach img x1 y1 x2 y2 hgr q.1 q.2 ⟨hq1, hq2⟩ hq3 p.2 h hp4)
  exact hmid.trans hv

theorem rect_closed_step (img : Img) (x1 y1 x2 y2 u1 v1 u2 v2 : Int)
    (hgchar : ∀ p : Int × Int, greenPt img p ↔
      (inRect x1 y1 x2 y2 p ∨ inRect u1 v1 u2 v2 p))
    (hsep : x2 + 2 ≤ u1 ∨ u2 + 2 ≤ x1 ∨ y2 + 2 ≤ v1 ∨ v2 + 2 ≤ y1) :
    ∀ v, inRect x1 y1 x2 y2 v → ∀ q ∈ nbrsOf v, greenPt img q →
      inRect x1 y1 x2 y2 q := by
  intro v hv q hq hg
  rcases (hgchar q).mp hg with h | h
  · exact h
  · exfalso
    obtain ⟨hv1, hv2, hv3, hv4⟩ := hv
    obtain ⟨hb1, hb2, hb3, hb4⟩ := h
    rcases mem_nbrsOf.mp hq with h1 | h1 | h1 | h1 <;> subst h1 <;>
      simp only at hb1 hb2 hb3 hb4 <;> omega

theorem comp_eq_rect (img : Img) (x1 y1 x2 y2 u1 v1 u2 v2 : Int)
    (hgchar : ∀ p : Int × Int, greenPt img p ↔
      (inRect x1 y1 x2 y2 p ∨ inRect u1 v1 u2 v2 p))
    (hsep : x2 + 2 ≤ u1 ∨ u2 + 2 ≤ x1 ∨ y2 + 2 ≤ v1 ∨ v2 + 2 ≤ y1)
    (p : Int × Int) (hp : inRect x1 y1 x2 y2 p) :
    ∀ x, reach img p x ↔ inRect x1 y1 x2 y2 x := by
  intro x
  constructor
  · intro h
    induction h with
    | refl => exact hp
    | tail _ hbc ih =>
      exact rect_closed_step img x1 y1 x2 y2 u1 v1 u2 v2 hgchar hsep _ ih _ hbc.2.2 hbc.2.1
  · intro hx
    exact rectReach img x1 y1 x2 y2 (fun r hr => (hgchar r).mpr (Or.inl hr)) p x hp hx

theorem rect_ncard (img : Img) (x1 y1 x2 y2 : Int) (p : Int × Int)
    (hcomp : ∀ x, reach img p x ↔ inRect x1 y1 x2 y2 x)
    (hle : x1 ≤ x2 ∧ y1 ≤ y2) :
    (compSet img p).ncard = ((x2 - x1 + 1) * (y2 - y1 + 1)).toNat := by
  have hset : compSet img p =
      ((Finset.Icc x1 x2 ×ˢ Finset.Icc y1 y2 : Finset (Int × Int)) : Set (Int × Int)) := by
    ext x
    simp only [compSet, Set.mem_setOf_eq, Finset.coe_product, Set.mem_prod,
      Finset.mem_coe, Finset.mem_Icc]
    rw [hcomp x]
    unfold inRect
    tauto
  rw [hset, Set.ncard_coe_Finset, Finset.card_product, Int.card_Icc, Int.card_Icc]
  have hu : (0 : Int) ≤ x2 - x1 + 1 := by omega
  have hv : (0 : Int) ≤ y2 - y1 + 1 := by omega
  have h1 : x2 + 1 - x1 = x2 - x1 + 1 := by ring
  have h2 : y2 + 1 - y1 = y2 - y1 + 1 := by ring
  rw [h1, h2]
  have hcast : (((x2 - x1 + 1).toNat * (y2 - y1 + 1).toNat : Nat) : Int) =
      ((((x2 - x1 + 1) * (y2 - y1 + 1)).toNat : Nat) : Int) := by
    rw [Int.toNat_of_nonneg (mul_nonneg hu hv)]
    push_cast [Int.toNat_of_nonneg hu, Int.toNat_of_nonneg hv]
    ring
  exact_mod_cast hcast

theorem foldl_min_spec (f : (Int × Int) → Int) (ps : List (Int × Int)) :
    ∀ a : Int, (ps.foldl (fun m q => min m (f q)) a = a ∨
        ∃ q ∈ ps, ps.foldl (fun m q => min m (f q)) a = f q) ∧
      ps.foldl (fun m q => min m (f q)) a ≤ a ∧
      ∀ q ∈ ps, ps.foldl (fun m q => min m (f q)) a ≤ f q := by
  induction ps with
  | nil =>
    intro a
    exact ⟨Or.inl rfl, le_refl a, by simp⟩
  | cons p ps ih =>
    intro a
    obtain ⟨h1, h2, h3⟩ := ih (min a (f p))
    refine ⟨?_, ?_, ?_⟩
    · rcases h1 with h | ⟨q, hq, h⟩
      · rcases le_total a (f p) with hle | hle
        · exact Or.inl (by rw [List.foldl_cons, h]; exact min_eq_left hle)
        · exact Or.inr ⟨p, List.mem_cons_self p ps,
            by rw [List.foldl_cons, h]; exact min_eq_right hle⟩
      · exact Or.inr ⟨q, List.mem_cons_of_mem p hq, by rw [List.foldl_cons]; exact h⟩
    · rw [List.foldl_cons]
      exact le_trans h2 (min_le_left a (f p))
    · intro q hq
      rcases List.mem_cons.mp hq with rfl | hq2
      · rw [List.foldl_cons]
        exact le_trans h2 (min_le_right a (f q))
      · rw [List.foldl_cons]
        exact h3 q hq2

theorem foldl_max_spec (f : (Int × Int) → Int) (ps : List (Int × Int)) :
    ∀ a : Int, (ps.foldl (fun m q => max m (f q)) a = a ∨
        ∃ q ∈ ps, ps.foldl (fun m q => max m (f q)) a = f q) ∧
      a ≤ ps.foldl (fun m q => max m (f q)) a ∧
      ∀ q ∈ ps, f q ≤ ps.foldl (fun m q => max m (f q)) a := by
  induction ps with
  | nil =>
    intro a
    exact ⟨Or.inl rfl, le_refl a, by simp⟩
  | cons p ps ih =>
    intro a
    obtain ⟨h1, h2, h3⟩ := ih (max a (f p))
    refine ⟨?_, ?_, ?_⟩
    · rcases h1 with h | ⟨q, hq, h⟩
      · rcases le_total (f p) a with hle | hle
        · exact Or.inl (by rw [List.foldl_cons, h]; exact max_eq_left hle)
        · exact Or.inr ⟨p, List.mem_cons_self p ps,
            by rw [List.foldl_cons, h]; exact max_eq_right hle⟩
      · exact Or.inr ⟨q, List.mem_cons_of_mem p hq, by rw [List.foldl_cons]; exact h⟩
    · rw [List.foldl_cons]
      exact le_trans (le_max_left a (f p)) h2
    · intro q hq
      rcases List.mem_cons.mp hq with rfl | hq2
      · rw [List.foldl_cons]
        exact le_trans (le_max_right a (f q)) h2
      · rw [List.foldl_cons]
        exact h3 q hq2

theorem boxOf_rect (r : List (Int × Int)) (x1 y1 x2 y2 : Int)
    (hchar : ∀ x, x ∈ r ↔ inRect x1 y1 x2 y2 x) (hle : x1 ≤ x2 ∧ y1 ≤ y2) :
    boxOf r = ⟨x1, y1, x2 - x1, y2 - y1, (x2 - x1) * (y2 - y1)⟩ := by
  have hcornerA : (x1, y1) ∈ r := (hchar _).mpr ⟨le_refl _, hle.1, le_refl _, hle.2⟩
  have hcornerB : (x2, y2) ∈ r := (hchar _).mpr ⟨hle.1, le_refl _, hle.2, le_refl _⟩
  cases hr : r with
  | nil =>
    rw [hr] at hcornerA
    simp at hcornerA
  | cons p ps =>
    rw [hr] at hchar hcornerA hcornerB
    have hxmin : ps.foldl (fun m q => min m q.1) p.1 = x1 := by
      obtain ⟨h1, h2, h3⟩ := foldl_min_spec (fun q => q.1) ps p.1
      have hub : ∀ q ∈ p :: ps, x1 ≤ q.1 := fun q hq => ((hchar q).mp hq).1
      have hge : x1 ≤ ps.foldl (fun m q => min m q.1) p.1 := by
        rcases h1 with h | ⟨q, hq, h⟩
        · rw [h]
          exact hub p (List.mem_cons_self p ps)
        · rw [h]
          exact hub q (List.mem_cons_of_mem p hq)
      have hlem : ps.foldl (fun m q => min m q.1) p.1 ≤ x1 := by
        rcases List.mem_cons.mp hcornerA with hc | hc
        · have hp1 : p.1 = x1 := by rw [← hc]
          omega
        · exact h3 (x1, y1) hc
      omega
    have hxmax : ps.foldl (fun m q => max m q.1) p.1 = x2 := by
      obtain ⟨h1, h2, h3⟩ := foldl_max_spec (fun q => q.1) ps p.1
      have hub : ∀ q ∈ p :: ps, q.1 ≤ x2 := fun q hq => ((hchar q).mp hq).2.1
      have hge : ps.foldl (fun m q => max m q.1) p.1 ≤ x2 := by
        rcases h1 with h | ⟨q, hq, h⟩
        · rw [h]
          exact hub p (List.mem_cons_self p ps)
        · rw [h]
          exact hub q (List.mem_cons_of_mem p hq)
      have hlem : x2 ≤ ps.foldl (fun m q => max m q.1) p.1 := by
        rcases List.mem_cons.mp hcornerB with hc | hc
        · have hp1 : p.1 = x2 := by rw [← hc]
          omega
        · exact h3 (x2, y2) hc
      omega
    have hymin : ps.foldl (fun m q => min m q.2) p.2 = y1 := by
      obtain ⟨h1, h2, h3⟩ := foldl_min_spec (fun q => q.2) ps p.2
      have hub : ∀ q ∈ p :: ps, y1 ≤ q.2 := fun q hq => ((hchar q).mp hq).2.2.1
      have hge : y1 ≤ ps.foldl (fun m q => min m q.2) p.2 := by
        rcases h1 with h | ⟨q, hq, h⟩
        · rw [h]
          exact hub p (List.mem_cons_self p ps)
        · rw [h]
          exact hub q (List.mem_cons_of_mem p hq)
      have hlem : ps.foldl (fun m q => min m q.2) p.2 ≤ y1 := by
        rcases List.mem_cons.mp hcornerA with hc | hc
        · have hp2 : p.2 = y1 := by rw [← hc]
          omega
        · exact h3 (x1, y1) hc
      omega
    have hymax : ps.foldl (fun m q => max m q.2) p.2 = y2 := by
      obtain ⟨h1, h2, h3⟩ := foldl_max_spec (fun q => q.2) ps p.2
      have hub : ∀ q ∈ p :: ps, q.2 ≤ y2 := fun q hq => ((hchar q).mp hq).2.2.2
      have hge : ps.foldl (fun m q => max m q.2) p.2 ≤ y2 := by
        rcases h1 with h | ⟨q, hq, h⟩
        · rw [h]
          exact hub p (List.mem_cons_self p ps)
        · rw [h]
          exact hub q (List.mem_cons_of_mem p hq)
      have hlem : y2 ≤ ps.foldl (fun m q => max m q.2) p.2 := by
        rcases List.mem_cons.mp hcornerB with hc | hc
        · have hp2 : p.2 = y2 := by rw [← hc]
          omega
        · exact h3 (x2, y2) hc
      omega
    simp only [boxOf]
    rw [hxmin, hxmax, hymin, hymax]

theorem scanRegions_records (img : Img) (g : Int × Int) (hg : g ∈ scanSeeds img)
    (hgr : greenPt img g) (hbig : 100 < (compSet img g).ncard) :
    ∃ r ∈ (scanRegions img).2, ∀ x, x ∈ r ↔ reach img g x := by
  obtain ⟨l1, l2, hsplit⟩ := List.append_of_mem hg
  have hbounds1 : ∀ p ∈ l1, p ∈ inBoundsF img := fun p hp =>
    scanSeeds_inBounds img p (by rw [hsplit]; exact List.mem_append.mpr (Or.inl hp))
  have hbounds2 : ∀ p ∈ l2, p ∈ inBoundsF img := fun p hp =>
    scanSeeds_inBounds img p
      (by rw [hsplit]; exact List.mem_append.mpr (Or.inr (List.mem_cons_of_mem g hp)))
  have hbase : ScanInv img (([], []) : List (Int × Int) × List (List (Int × Int))) :=
    ⟨by simp, by simp, by simp, List.Pairwise.nil, by simp⟩
  have hinv1 := (scanFold_inv img l1 hbounds1 ([], []) hbase).1
  obtain ⟨hinvStep, _, hrec⟩ := scanStep_inv img (List.foldl (scanStep img) ([], []) l1) g
    (scanSeeds_inBounds img g hg) hinv1
  obtain ⟨r, hr, hcr⟩ := hrec hgr hbig
  have hmono := (scanFold_inv img l2 hbounds2
    (scanStep img (List.foldl (scanStep img) ([], []) l1) g) hinvStep).2
  refine ⟨r, ?_, hcr⟩
  unfold scanRegions
  rw [hsplit, List.foldl_append, List.foldl_cons]
  exact hmono r hr

/-- C1 amended: for every RGB template image whose key-colored pixels form
exactly two rectangles that are separated by at least one blank pixel row or
column along some axis, each containing a stride-5 scan-grid point and each
with strictly more than 100 pixels, detection succeeds; but the returned
regions carry `width = x2 - x1` and `height = y2 - y1` computed from the
extreme member coordinates (one less than the rectangle's pixel width and
height), the ranking area is the product of those reduced extents, and the
main region is the rectangle with the larger reduced-extent product. -/
theorem c1_amended (img : Img) (ax1 ay1 ax2 ay2 bx1 by1 bx2 by2 : Int) (gA gB : Int × Int)
    (hA : ax1 ≤ ax2 ∧ ay1 ≤ ay2) (hB : bx1 ≤ bx2 ∧ by1 ≤ by2)
    (hAb : 0 ≤ ax1 ∧ ax2 < (img.width : Int) ∧ 0 ≤ ay1 ∧ ay2 < (img.height : Int))
    (hBb : 0 ≤ bx1 ∧ bx2 < (img.width : Int) ∧ 0 ≤ by1 ∧ by2 < (img.height : Int))
    (hpix : ∀ p ∈ inBoundsF img, (isGreen (img.pix p.1 p.2) = true ↔
      (inRect ax1 ay1 ax2 ay2 p ∨ inRect bx1 by1 bx2 by2 p)))
    (hsep : ax2 + 2 ≤ bx1 ∨ bx2 + 2 ≤ ax1 ∨ ay2 + 2 ≤ by1 ∨ by2 + 2 ≤ ay1)
    (hsA : 100 < (ax2 - ax1 + 1) * (ay2 - ay1 + 1))
    (hsB : 100 < (bx2 - bx1 + 1) * (by2 - by1 + 1))
    (hgA : gA ∈ scanSeeds img ∧ inRect ax1 ay1 ax2 ay2 gA)
    (hgB : gB ∈ scanSeeds img ∧ inRect bx1 by1 bx2 by2 gB)
    (horder : (bx2 - bx1) * (by2 - by1) < (ax2 - ax1) * (ay2 - ay1)) :
    detectTemplateRegions img =
      some (⟨ax1, ay1, ax2 - ax1, ay2 - ay1, (ax2 - ax1) * (ay2 - ay1)⟩,
            ⟨bx1, by1, bx2 - bx1, by2 - by1, (bx2 - bx1) * (by2 - by1)⟩) := by
  have hgchar : ∀ p : Int × Int, greenPt img p ↔
      (inRect ax1 ay1 ax2 ay2 p ∨ inRect bx1 by1 bx2 by2 p) := by
    intro p
    constructor
    · intro hg
      exact (hpix p hg.1).mp hg.2
    · intro h
      have hmem : p ∈ inBoundsF img := by
        simp only [inBoundsF, Finset.mem_product, Finset.mem_Icc]
        rcases h with h | h <;> obtain ⟨h1, h2, h3, h4⟩ := h <;>
          exact ⟨⟨by omega, by omega⟩, by omega, by omega⟩
      exact ⟨hmem, (hpix p hmem).mpr h⟩
  have hgchar2 : ∀ p : Int × Int, greenPt img p ↔
      (inRect bx1 by1 bx2 by2 p ∨ inRect ax1 ay1 ax2 ay2 p) := by
    intro p
    rw [hgchar p]
    exact or_comm
  have hsep2 : bx2 + 2 ≤ ax1 ∨ ax2 + 2 ≤ bx1 ∨ by2 + 2 ≤ ay1 ∨ ay2 + 2 ≤ by1 := by
    tauto
  have hcompA : ∀ p, inRect ax1 ay1 ax2 ay2 p →
      ∀ x, reach img p x ↔ inRect ax1 ay1 ax2 ay2 x :=
    fun p hp => comp_eq_rect img ax1 ay1 ax2 ay2 bx1 by1 bx2 by2 hgchar hsep p hp
  have hcompB : ∀ p, inRect bx1 by1 bx2 by2 p →
      ∀ x, reach img p x ↔ inRect bx1 by1 bx2 by2 x :=
    fun p hp => comp_eq_rect img bx1 by1 bx2 by2 ax1 ay1 ax2 ay2 hgchar2 hsep2 p hp
  have hbigA : ∀ p, inRect ax1 ay1 ax2 ay2 p → 100 < (compSet img p).ncard := by
    intro p hp
    rw [rect_ncard img ax1 ay1 ax2 ay2 p (hcompA p hp) hA]
    omega
  have hbigB : ∀ p, inRect bx1 by1 bx2 by2 p → 100 < (compSet img p).ncard := by
    intro p hp
    rw [rect_ncard img bx1 by1 bx2 by2 p (hcompB p hp) hB]
    omega
  obtain ⟨rA, hrA, hcrA⟩ := scanRegions_records img gA hgA.1
    ((hgchar gA).mpr (Or.inl hgA.2)) (hbigA gA hgA.2)
  obtain ⟨rB, hrB, hcrB⟩ := scanRegions_records img gB hgB.1
    ((hgchar gB).mpr (Or.inr hgB.2)) (hbigB gB hgB.2)
  have hrAchar : ∀ x, x ∈ rA ↔ inRect ax1 ay1 ax2 ay2 x :=
    fun x => (hcrA x).trans (hcompA gA hgA.2 x)
  have hrBchar : ∀ x, x ∈ rB ↔ inRect bx1 by1 bx2 by2 x :=
    fun x => (hcrB x).trans (hcompB gB hgB.2 x)
  have cornerA : inRect ax1 ay1 ax2 ay2 (ax1, ay1) := ⟨le_refl _, hA.1, le_refl _, hA.2⟩
  have cornerB : inRect bx1 by1 bx2 by2 (bx1, by1) := ⟨le_refl _, hB.1, le_refl _, hB.2⟩
  have hdisjAB : ∀ x, inRect ax1 ay1 ax2 ay2 x → inRect bx1 by1 bx2 by2 x → False := by
    intro x h1 h2
    obtain ⟨a1, a2, a3, a4⟩ := h1
    obtain ⟨b1, b2, b3, b4⟩ := h2
    omega
  have hne : rA ≠ rB := by
    intro he
    have hm : (bx1, by1) ∈ rA := by
      rw [he]
      exact (hrBchar _).mpr cornerB
    exact hdisjAB (bx1, by1) ((hrAchar _).mp hm) cornerB
  obtain ⟨hg1, hg2, hg3, hg4, hg5⟩ := scanRegions_inv img
  have hall : ∀ r ∈ (scanRegions img).2,
      (∀ x, x ∈ r ↔ inRect ax1 ay1 ax2 ay2 x) ∨
      (∀ x, x ∈ r ↔ inRect bx1 by1 bx2 by2 x) := by
    intro r hr
    obtain ⟨s0, hs0g, hc0, _, _, _⟩ := hg3 r hr
    rcases (hgchar s0).mp hs0g with h | h
    · exact Or.inl (fun x => (hc0 x).trans (hcompA s0 h x))
    · exact Or.inr (fun x => (hc0 x).trans (hcompB s0 h x))
  have hclashA : ∀ r t : List (Int × Int),
      (∀ x, x ∈ r ↔ inRect ax1 ay1 ax2 ay2 x) →
      (∀ x, x ∈ t ↔ inRect ax1 ay1 ax2 ay2 x) →
      (∀ x, x ∈ r → x ∉ t) → False :=
    fun _ _ h1 h2 hd => hd (ax1, ay1) ((h1 _).mpr cornerA) ((h2 _).mpr cornerA)
  have hclashB : ∀ r t : List (Int × Int),
      (∀ x, x ∈ r ↔ inRect bx1 by1 bx2 by2 x) →
      (∀ x, x ∈ t ↔ inRect bx1 by1 bx2 by2 x) →
      (∀ x, x ∈ r → x ∉ t) → False :=
    fun _ _ h1 h2 hd => hd (bx1, by1) ((h1 _).mpr cornerB) ((h2 _).mpr cornerB)
  obtain ⟨u, v, hUV⟩ : ∃ u v, (scanRegions img).2 = [u, v] := by
    cases hL : (scanRegions img).2 with
    | nil =>
      rw [hL] at hrA
      simp at hrA
    | cons u rest =>
      cases hrest : rest with
      | nil =>
        exfalso
        rw [hL, hrest] at hrA hrB
        simp at hrA hrB
        exact hne (hrA.trans hrB.symm)
      | cons v rest2 =>
        cases hrest2 : rest2 with
        | nil => exact ⟨u, v, rfl⟩
        | cons w rest3 =>
          exfalso
          rw [hL, hrest, hrest2] at hall hg4
          have hu := hall u (by simp)
          have hv := hall v (by simp)
          have hw := hall w (by simp)
          rw [List.pairwise_cons] at hg4
          obtain ⟨hd1, hg4b⟩ := hg4
          rw [List.pairwise_cons] at hg4b
          obtain ⟨hd2, _⟩ := hg4b
          have hduv : ∀ x, x ∈ u → x ∉ v := hd1 v (by simp)
          have hduw : ∀ x, x ∈ u → x ∉ w := hd1 w (by simp)
          have hdvw : ∀ x, x ∈ v → x ∉ w := hd2 w (by simp)
          rcases hu with hu | hu <;> rcases hv with hv | hv <;> rcases hw with hw | hw
          · exact hclashA u v hu hv hduv
          · exact hclashA u v hu hv hduv
          · exact hclashA u w hu hw hduw
          · exact hclashB v w hv hw hdvw
          · exact hclashA v w hv hw hdvw
          · exact hclashB u w hu hw hduw
          · exact hclashB u v hu hv hduv
          · exact hclashB u v hu hv hduv
  rw [hUV] at hrA hrB
  simp only [List.mem_cons, List.mem_singleton, List.not_mem_nil, or_false] at hrA hrB
  have hboxA : boxOf rA = ⟨ax1, ay1, ax2 - ax1, ay2 - ay1, (ax2 - ax1) * (ay2 - ay1)⟩ :=
    boxOf_rect rA ax1 ay1 ax2 ay2 hrAchar hA
  have hboxB : boxOf rB = ⟨bx1, by1, bx2 - bx1, by2 - by1, (bx2 - bx1) * (by2 - by1)⟩ :=
    boxOf_rect rB bx1 by1 bx2 by2 hrBchar hB
  have hGE : areaGE (⟨ax1, ay1, ax2 - ax1, ay2 - ay1, (ax2 - ax1) * (ay2 - ay1)⟩ : Box)
      ⟨bx1, by1, bx2 - bx1, by2 - by1, (bx2 - bx1) * (by2 - by1)⟩ :=
    le_of_lt horder
  have hNGE : ¬ areaGE (⟨bx1, by1, bx2 - bx1, by2 - by1, (bx2 - bx1) * (by2 - by1)⟩ : Box)
      ⟨ax1, ay1, ax2 - ax1, ay2 - ay1, (ax2 - ax1) * (ay2 - ay1)⟩ :=
    not_le.mpr horder
  have hcases : (u = rA ∧ v = rB) ∨ (u = rB ∧ v = rA) := by
    rcases hrA with h1 | h1 <;> rcases hrB with h2 | h2
    · exact absurd (h1.trans h2.symm) hne
    · exact Or.inl ⟨h1.symm, h2.symm⟩
    · exact Or.inr ⟨h2.symm, h1.symm⟩
    · exact absurd (h1.trans h2.symm) hne
  have hdet : detectTemplateRegions img =
      (if ((scanRegions img).2).length < 2 then none
        else
          match List.insertionSort areaGE (((scanRegions img).2).map boxOf) with
          | b0 :: b1 :: _ => some (b0, b1)
          | _ => none) := rfl
  rw [hdet, hUV]
  rw [if_neg (by simp)]
  rcases hcases with ⟨hu, hv⟩ | ⟨hu, hv⟩
  · subst hu
    subst hv
    simp only [List.map_cons, List.map_nil, hboxA, hboxB]
    have hsort : List.insertionSort areaGE
        [(⟨ax1, ay1, ax2 - ax1, ay2 - ay1, (ax2 - ax1) * (ay2 - ay1)⟩ : Box),
         ⟨bx1, by1, bx2 - bx1, by2 - by1, (bx2 - bx1) * (by2 - by1)⟩] =
        [(⟨ax1, ay1, ax2 - ax1, ay2 - ay1, (ax2 - ax1) * (ay2 - ay1)⟩ : Box),
         ⟨bx1, by1, bx2 - bx1, by2 - by1, (bx2 - bx1) * (by2 - by1)⟩] := by
      simp only [List.insertionSort, List.orderedInsert]
      rw [if_pos hGE]
    rw [hsort]
  · subst hu
    subst hv
    simp only [List.map_cons, List.map_nil, hboxA, hboxB]
    have hsort : List.insertionSort areaGE
        [(⟨bx1, by1, bx2 - bx1, by2 - by1, (bx2 - bx1) * (by2 - by1)⟩ : Box),
         ⟨ax1, ay1, ax2 - ax1, ay2 - ay1, (ax2 - ax1) * (ay2 - ay1)⟩] =
        [(⟨ax1, ay1, ax2 - ax1, ay2 - ay1, (ax2 - ax1) * (ay2 - ay1)⟩ : Box),
         ⟨bx1, by1, bx2 - bx1, by2 - by1, (bx2 - bx1) * (by2 - by1)⟩] := by
      simp only [List.insertionSort, List.orderedInsert]
      rw [if_neg hNGE]
    rw [hsort]

set_option maxRecDepth 1000000 in
set_option maxHeartbeats 8000000 in
/-- C1 counterexample: on a template holding exactly two disjoint key-colored
rectangles of 119 and 102 pixels (areas above 100, the larger first),
detection succeeds but the returned regions are not the true bounding boxes:
the main region is `16 × 6` at `(0,0)` although the larger rectangle's
bounding box is `17 × 7`, and likewise for the anchor region (the source sets
`w = x2 - x1` and `h = y2 - y1`, one less than the pixel extents). -/
theorem c1_counterexample :
    detectTemplateRegions exImg = some (⟨0, 0, 16, 6, 96⟩, ⟨20, 10, 16, 5, 80⟩) ∧
    (⟨0, 0, 16, 6, 96⟩ : Box) ≠ specTrueBox 0 0 16 6 ∧
    (⟨20, 10, 16, 5, 80⟩ : Box) ≠ specTrueBox 20 10 36 15 := by
  refine ⟨by decide, by decide, by decide⟩

set_option maxRecDepth 1000000 in
set_option maxHeartbeats 4000000 in
/-- Witness for C1 amended at the concrete two-rectangle template `exImg`. -/
theorem c1_witness :
    detectTemplateRegions exImg = some (⟨0, 0, 16, 6, 96⟩, ⟨20, 10, 16, 5, 80⟩) := by
  have h := c1_amended exImg 0 0 16 6 20 10 36 15 (0, 0) (20, 10)
    (by decide) (by decide) (by decide) (by decide)
    (by decide) (by decide) (by decide) (by decide)
    ⟨by decide, by decide⟩ ⟨by decide, by decide⟩ (by decide)
  norm_num at h
  exact h
